import Mathlib

/-!
# Verification of `export-salaries.mjs`

A shallow embedding of the MFL salary exporter (`src/export-salaries.mjs`)
and proofs of the specified properties.

Modelling conventions:
* A JavaScript `Map` is an insertion-ordered association list
  `List (String × α)`; `Map.get` is first-match lookup (`mapGet`) and
  `Map.set` updates an existing key in place or appends (`mapSet`).
  A `Map` built only through `mapSet` has duplicate-free keys.
* Monetary amounts are integers (`Int`): the program manipulates JS
  numbers only through `parseFloat`, comparison, `Math.max` and
  `Math.round`, and the amounts are whole currency units (spec §3;
  fractional digits after a parsed integer prefix are not modelled).
* A JSON field that may be absent is an `Option`; the JS truthiness guard
  `!x` on a string field is `none`-or-`""`.
* A field that may be a single object or an array is a `JsVal`
  (mirroring what `ensureArray` consumes).
* Object property lookup (`groups[pos]`, `map[upper]`) is modelled as
  own-property lookup on the literal's keys.  For `normalizePosition`
  this is exact: the looked-up key is all-uppercase while every inherited
  JS property name contains a lowercase letter.
-/

/-- A JSON value that is either absent/falsy, a single object, or an
array — the three shapes `ensureArray` distinguishes. -/
inductive JsVal (α : Type) where
  | missing : JsVal α
  | one (a : α) : JsVal α
  | many (l : List α) : JsVal α

/-- `ensureArray(value)`: falsy becomes `[]`, an array is kept,
a lone object is wrapped in a one-element array. -/
def ensureArray {α : Type} : JsVal α → List α
  | .missing => []
  | .one a => [a]
  | .many l => l

/-- `Map.prototype.get`: first-match lookup in the association list. -/
def mapGet {α : Type} : List (String × α) → String → Option α
  | [], _ => none
  | (k', v) :: rest, k => if k' = k then some v else mapGet rest k

/-- `Map.prototype.set`: replace the value at an existing key in place
(keeping its insertion position), or append a fresh key at the end. -/
def mapSet {α : Type} : List (String × α) → String → α → List (String × α)
  | [], k, v => [(k, v)]
  | (k', v') :: rest, k, v =>
    if k' = k then (k', v) :: rest else (k', v') :: mapSet rest k v

/-- A salary mapping `Map<playerId, amount>`. -/
abbrev SalMap := List (String × Int)

/-- `m.get(k) || 0` as used throughout the source. -/
def getOr0 (m : SalMap) (k : String) : Int :=
  (mapGet m k).getD 0

-- ── Configuration (verbatim from the source) ─────────────────────────

def YEARS : List Nat := [2021, 2022, 2023, 2024, 2025]

def POSITIONS : List String := ["QB", "RB", "WR", "TE", "PK", "Def"]

def TOP_N : Nat := 30

def MAX_RETRIES : Nat := 3

def RETRY_BACKOFF_MS : Nat := 1500

/-- Team-aggregate positions to exclude from output. -/
def EXCLUDED_POSITIONS : List String :=
  ["TMWR", "TMRB", "TMDL", "TMTE", "TMQB", "TMPK", "TMPN", "TMLB", "TMDB",
   "ST", "Off", "HB", "CB", "DB", "DL", "LB", "S", "DE", "DT", "FB"]

-- ── String primitives ────────────────────────────────────────────────
-- The JS string builtins the source uses (`trim`, single-character
-- `split`, `toUpperCase`), implemented over `List Char` so that every
-- concrete instance reduces in the kernel.

/-- `String.prototype.trim`: strip whitespace from both ends. -/
def trimChars (cs : List Char) : List Char :=
  ((cs.dropWhile (fun c => c.isWhitespace)).reverse.dropWhile
    (fun c => c.isWhitespace)).reverse

/-- `String.prototype.split` with a one-character separator: the list of
(possibly empty) chunks between separators; splitting the empty string
gives `[""]`. -/
def splitChar (sep : Char) : List Char → List (List Char)
  | [] => [[]]
  | c :: rest =>
    match splitChar sep rest with
    | [] => [[]]
    | h :: t => if c = sep then [] :: h :: t else (c :: h) :: t

/-- `String.prototype.toUpperCase` (characterwise; the raw position
codes are ASCII). -/
def jsToUpper (s : String) : String :=
  String.mk (s.toList.map Char.toUpper)

-- ── Numeric parsing ──────────────────────────────────────────────────

/-- Value of a digit string read most-significant first. -/
def digitsVal (ds : List Char) : Int :=
  ds.foldl (fun a c => a * 10 + ((c.toNat - '0'.toNat : ℕ) : Int)) 0

/-- Model of the JS expression `parseFloat(s) || 0`: skip leading
whitespace, read an optional sign and the longest run of digits; an
input with no digit there parses to `NaN`, which `|| 0` turns into `0`.
The amounts this program receives are whole currency units, so a
fractional tail after the digit run (as well as exponent notation and
`Infinity`) is not modelled. -/
def parseFloatOr0 (s : String) : Int :=
  let cs := s.toList.dropWhile (fun c => c.isWhitespace)
  let signAndRest : Int × List Char :=
    match cs with
    | '-' :: rest => (-1, rest)
    | '+' :: rest => (1, rest)
    | _ => (1, cs)
  let sign := signAndRest.1
  let cs₁ := signAndRest.2
  let intDigits := cs₁.takeWhile (fun c => c.isDigit)
  if intDigits.isEmpty then 0
  else sign * digitsVal intDigits

/-- `parseFloat(x) || 0` where the field `x` may be missing
(`parseFloat(undefined)` is `NaN`, so a missing field yields `0`). -/
def parseFloatOpt : Option String → Int
  | none => 0
  | some s => parseFloatOr0 s

-- ── formatName ───────────────────────────────────────────────────────

/-- A JS regex line terminator (what `.` refuses to match). -/
def isLineTerm (c : Char) : Bool :=
  c = '\n' || c = '\r' || c = (Char.ofNat 0x2028) || c = (Char.ofNat 0x2029)

/-- Matching `\s*(.+)$` against `cs` with the regex engine's greedy
backtracking: consume as much whitespace as possible, then `(.+)` must
cover the whole remainder with no line terminator; on failure give back
one whitespace character at a time.  Returns the text captured by
`(.+)`. -/
def wsThenRest : List Char → Option (List Char)
  | [] => none
  | c :: rest =>
    if c.isWhitespace then
      match wsThenRest rest with
      | some t => some t
      | none =>
        if (c :: rest).all (fun d => !isLineTerm d) then some (c :: rest) else none
    else
      if (c :: rest).all (fun d => !isLineTerm d) then some (c :: rest) else none

/-- Model of `s.match(/^([^,]+),\s*(.+)$/)`: `[^,]+` greedily takes the
run before the first comma (it can never cross one, so no backtracking
arises there), the literal comma follows, and `\s*(.+)$` matches the
rest.  Returns the two capture groups. -/
def nameMatch (cs : List Char) : Option (List Char × List Char) :=
  let pre := cs.takeWhile (fun c => c ≠ ',')
  if pre.length = 0 then none
  else if pre.length = cs.length then none
  else
    match wsThenRest (cs.drop (pre.length + 1)) with
    | none => none
    | some tail => some (pre, tail)

/-- `formatName(mflName)`: convert MFL `"Last, First"` to
`"First Last"`; falsy input gives `"Unknown"`; an input the regex does
not match is returned unchanged. -/
def formatName : Option String → String
  | none => "Unknown"
  | some s =>
    if s = "" then "Unknown"
    else
      match nameMatch s.toList with
      | none => s
      | some (last, first) =>
        String.mk (trimChars first) ++ " " ++ String.mk (trimChars last)

-- ── normalizePosition ────────────────────────────────────────────────

/-- The object literal `{ QB: 'QB', RB: 'RB', WR: 'WR', TE: 'TE',
PK: 'PK', DEF: 'Def' }`. -/
def positionMap : List (String × String) :=
  [("QB", "QB"), ("RB", "RB"), ("WR", "WR"), ("TE", "TE"),
   ("PK", "PK"), ("DEF", "Def")]

/-- `normalizePosition(pos)`: `null` for falsy or deny-listed input,
else canonicalize through the uppercase form. -/
def normalizePosition : Option String → Option String
  | none => none
  | some pos =>
    if pos = "" then none
    else if pos ∈ EXCLUDED_POSITIONS then none
    else
      let upper := jsToUpper pos
      if upper = "DEF" then some "Def"
      else if upper = "K" then some "PK"
      else mapGet positionMap upper

-- ── mergeInto ────────────────────────────────────────────────────────

/-- One accumulation step shared by `mergeInto` and the extractors:
`const existing = m.get(k) || 0; m.set(k, Math.max(existing, v))`. -/
def setMax (m : SalMap) (k : String) (v : Int) : SalMap :=
  mapSet m k (max (getOr0 m k) v)

/-- `mergeInto(target, source)`: fold the source's entries (in insertion
order) into the target, keeping the max salary per player. -/
def mergeInto (target source : SalMap) : SalMap :=
  source.foldl (fun t e => setMax t e.1 e.2) target

/-- The merge of a list of salary maps into an initially empty
accumulator, in the given order — `collectAllData` does this with the
four per-season sources. -/
def mergeList (maps : List SalMap) : SalMap :=
  maps.foldl mergeInto []

-- ── Extractors ───────────────────────────────────────────────────────

/-- A roster player record: `p.id` and `p.salary` fields. -/
structure RawRosterPlayer where
  id : Option String
  salary : Option String

/-- A franchise record inside `data.rosters.franchise`. -/
structure Franchise where
  player : JsVal RawRosterPlayer

/-- The extraction loop of `fetchRosters`: skip a player with a falsy
`id`, parse the salary, record it when positive keeping the max per
player. -/
def extractRosters (fr : JsVal Franchise) : SalMap :=
  (ensureArray fr).foldl (fun m f =>
    (ensureArray f.player).foldl (fun m' p =>
      match p.id with
      | none => m'
      | some pid =>
        if pid = "" then m'
        else
          let salary := parseFloatOpt p.salary
          if 0 < salary then setMax m' pid salary else m') m) []

/-- An auction record: `auction.player` and `auction.winningBid`. -/
structure RawAuction where
  player : Option String
  winningBid : Option String

/-- The extraction loop of `fetchAuctionResults`. -/
def extractAuctions (au : JsVal RawAuction) : SalMap :=
  (ensureArray au).foldl (fun m a =>
    match a.player with
    | none => m
    | some pid =>
      if pid = "" then m
      else
        let bid := parseFloatOpt a.winningBid
        if 0 < bid then setMax m pid bid else m) []

/-- A BBID_WAIVER transaction record: its `transaction` string field. -/
structure RawTx where
  transaction : Option String

/-- The extraction loop of `fetchBbidTransactions`: split the
`"droppedIds|bidAmount|addedIds"` payload, discard short or non-positive
records, and record every trimmed non-empty added id at the bid. -/
def extractBbid (txs : JsVal RawTx) : SalMap :=
  (ensureArray txs).foldl (fun m tx =>
    match tx.transaction with
    | none => m
    | some s =>
      if s = "" then m
      else
        let parts := splitChar '|' s.toList
        if parts.length < 3 then m
        else
          let bidAmount := parseFloatOr0 (String.mk (parts.getD 1 []))
          if bidAmount ≤ 0 then m
          else
            let addedIds :=
              ((splitChar ',' (parts.getD 2 [])).map
                (fun t => String.mk (trimChars t))).filter (fun t => t ≠ "")
            addedIds.foldl (fun m' pid => setMax m' pid bidAmount) m) []

/-- A player record from the `players` feed. -/
structure RawPlayer where
  id : Option String
  name : Option String
  position : Option String

/-- Player metadata as stored by `fetchPlayerMetadata`. -/
structure PlayerMeta where
  name : String
  position : String
deriving DecidableEq

/-- The extraction loop of `fetchPlayerMetadata`: skip a falsy id or an
unrecognized position, else store the formatted name and normalized
position. -/
def extractPlayers (ps : JsVal RawPlayer) : List (String × PlayerMeta) :=
  (ensureArray ps).foldl (fun m p =>
    match p.id with
    | none => m
    | some pid =>
      if pid = "" then m
      else
        match normalizePosition p.position with
        | none => m
        | some pos => mapSet m pid ⟨formatName p.name, pos⟩) []

-- ── Ranking ──────────────────────────────────────────────────────────

/-- One `{ name, salary }` entry of a position bucket. -/
structure RankedEntry where
  name : String
  salary : Int
deriving DecidableEq

/-- Insert an element into an already-sorted (descending) list so that
it lands after every strictly larger element and before every element
with an equal or smaller salary.  Together with `sortDesc` this is the
unique stable sort for the comparator `(a, b) => b.salary - a.salary`,
which is what `Array.prototype.sort` guarantees. -/
def insertDesc (x : RankedEntry) : List RankedEntry → List RankedEntry
  | [] => [x]
  | y :: ys => if x.salary < y.salary then y :: insertDesc x ys else x :: y :: ys

/-- Stable descending-by-salary sort. -/
def sortDesc : List RankedEntry → List RankedEntry
  | [] => []
  | x :: xs => insertDesc x (sortDesc xs)

/-- The entries pushed into a given position's bucket by the grouping
loop of `rankByPosition`, in the encounter order of `salaryMap`.  An
entry is pushed only when metadata exists and its position names an
own key of `groups`, i.e. one of `POSITIONS`; for `pos ∈ POSITIONS`
that condition is exactly `meta.position = pos`. -/
def bucketEntries (salaryMap : SalMap) (playerMap : List (String × PlayerMeta))
    (pos : String) : List RankedEntry :=
  salaryMap.filterMap fun e =>
    match mapGet playerMap e.1 with
    | none => none
    | some meta =>
      if meta.position = pos then some ⟨meta.name, e.2⟩ else none

/-- `rankByPosition(salaryMap, playerMap)`: a bucket per tracked
position (always present, in the fixed order), each sorted descending
by salary and truncated to the first `TOP_N` entries. -/
def rankByPosition (salaryMap : SalMap) (playerMap : List (String × PlayerMeta)) :
    List (String × List RankedEntry) :=
  POSITIONS.map fun pos =>
    (pos, (sortDesc (bucketEntries salaryMap playerMap pos)).take TOP_N)

-- ── Fetch client ─────────────────────────────────────────────────────

/-- A parsed JSON body: its optional `error` field (the part `fetchJson`
inspects) and an opaque payload. -/
structure JsonBody where
  error : Option String
  payload : String
deriving DecidableEq

/-- What one HTTP attempt can produce: a non-success status, a
transport-level throw, or a response body. -/
inductive FetchAttempt where
  | notOk (status : Nat) (statusText : String)
  | throws (msg : String)
  | okBody (body : JsonBody)

/-- One iteration of the `fetchJson` try-block: a non-ok status throws
`HTTP <status>: <statusText>`, a transport failure rethrows its message,
a body with an `error` field throws `MFL error: …` (`JSON.stringify` of
the error value modelled as the string itself), otherwise the body is
returned. -/
def attemptOutcome : FetchAttempt → Except String JsonBody
  | .notOk status statusText =>
    .error ("HTTP " ++ toString status ++ ": " ++ statusText)
  | .throws msg => .error msg
  | .okBody body =>
    match body.error with
    | some e => .error ("MFL error: " ++ e)
    | none => .ok body

/-- Observable trace of one `fetchJson` call: its result, the delays
slept between attempts, and how many attempts ran. -/
structure FetchTrace where
  result : Except String JsonBody
  waits : List Nat
  attempts : Nat

/-- The error message thrown once the budget is exhausted:
`` `Failed after ${MAX_RETRIES} attempts: ${url} — ${err.message}` ``. -/
def failMsg (url msg : String) : String :=
  "Failed after " ++ toString MAX_RETRIES ++ " attempts: " ++ url ++ " — " ++ msg

/-- The retry loop of `fetchJson`, with the attempt counter starting at
1; `fuel` only bounds the recursion and is `MAX_RETRIES` at the top
call, matching the loop bound `attempt <= MAX_RETRIES`. -/
def fetchJsonGo (url : String) (oracle : Nat → FetchAttempt) :
    Nat → Nat → FetchTrace
  | _, 0 => ⟨.error "", [], 0⟩
  | attempt, fuel + 1 =>
    match attemptOutcome (oracle attempt) with
    | .ok body => ⟨.ok body, [], 1⟩
    | .error msg =>
      if attempt = MAX_RETRIES then
        ⟨.error (failMsg url msg), [], 1⟩
      else
        let wait := RETRY_BACKOFF_MS * attempt
        let t := fetchJsonGo url oracle (attempt + 1) fuel
        ⟨t.result, wait :: t.waits, t.attempts + 1⟩

/-- `fetchJson(url)` against an oracle giving the outcome of each
numbered attempt. -/
def fetchJson (url : String) (oracle : Nat → FetchAttempt) : FetchTrace :=
  fetchJsonGo url oracle 1 MAX_RETRIES

-- ── Orchestration ────────────────────────────────────────────────────

/-- The network as seen by `collectAllData`: for each season, the
outcome of each of the five requests, already shaped as the JSON
fragment the corresponding extractor walks.  An `.error` models a fetch
whose retry budget was exhausted. -/
structure Network where
  rosters : Nat → Nat → Except String (JsVal Franchise)
  auctionResults : Nat → Except String (JsVal RawAuction)
  transactions : Nat → Except String (JsVal RawTx)
  players : Nat → Except String (JsVal RawPlayer)

/-- `fetchRosters(year, week)`: fetch then extract; a fetch error
propagates unchanged. -/
def fetchRosters (net : Network) (year week : Nat) : Except String SalMap :=
  (net.rosters year week).map extractRosters

/-- `fetchAuctionResults(year)`. -/
def fetchAuctionResults (net : Network) (year : Nat) : Except String SalMap :=
  (net.auctionResults year).map extractAuctions

/-- `fetchBbidTransactions(year)`. -/
def fetchBbidTransactions (net : Network) (year : Nat) : Except String SalMap :=
  (net.transactions year).map extractBbid

/-- `fetchPlayerMetadata(year)`. -/
def fetchPlayerMetadata (net : Network) (year : Nat) :
    Except String (List (String × PlayerMeta)) :=
  (net.players year).map extractPlayers

/-- The aggregate report being assembled: for each position, the list of
`(year, ranked bucket)` pairs stored so far. -/
abbrev AllData := List (String × List (Nat × List RankedEntry))

/-- `allData[pos][year] = ranked[pos]` for every tracked position. -/
def storeYear (acc : AllData) (year : Nat)
    (ranked : List (String × List RankedEntry)) : AllData :=
  acc.map fun e => (e.1, e.2 ++ [(year, (mapGet ranked e.1).getD [])])

/-- The per-season loop of `collectAllData`: five sequential fetches (a
failure aborts the whole fold), then merge the four salary sources and
rank. -/
def collectYears (net : Network) : List Nat → AllData → Except String AllData
  | [], acc => .ok acc
  | year :: rest, acc => do
    let rostersW1 ← fetchRosters net year 1
    let rostersW14 ← fetchRosters net year 14
    let auctionSalaries ← fetchAuctionResults net year
    let bbidSalaries ← fetchBbidTransactions net year
    let playerMap ← fetchPlayerMetadata net year
    let merged :=
      mergeList [rostersW1, rostersW14, auctionSalaries, bbidSalaries]
    let ranked := rankByPosition merged playerMap
    collectYears net rest (storeYear acc year ranked)

/-- `collectAllData()`: every season in order, starting from a report
with an empty year list per position. -/
def collectAllData (net : Network) : Except String AllData :=
  collectYears net YEARS (POSITIONS.map fun pos => (pos, []))

/-- The observable outcome of `main()`: the process exit code and the
workbook file written, if any. -/
structure RunOutcome where
  exitCode : Nat
  written : Option String
deriving DecidableEq

/-- `main()`: on success write the workbook named from today's date and
exit 0; any error is caught once at the top and turns into exit 1 with
nothing written.  (Named `mainRun` because Lean reserves `main`.) -/
def mainRun (net : Network) (today : String) : RunOutcome :=
  match collectAllData net with
  | .ok _ => ⟨0, some ("mfl-salary-top30-" ++ today ++ ".xlsx")⟩
  | .error _ => ⟨1, none⟩

-- ── Verification-side definitions ────────────────────────────────────

/-- The running maximum the set-max loops compute for one key: fold the
entry list, taking `max` with every value recorded at `k`. -/
def maxAt (k : String) (es : List (String × Int)) (a : Int) : Int :=
  es.foldl (fun acc e => if e.1 = k then max acc e.2 else acc) a

/-- The value `mergeList` accumulates for key `k`: the running maximum
over all entries of all maps, started from the `|| 0` default. -/
def allMax (maps : List SalMap) (k : String) : Int :=
  maps.foldl (fun a m => maxAt k m a) 0

/-- The `(playerId, bidAmount)` pairs one BBID transaction record
contributes (the body of the `extractBbid` loop before the set-max
accumulation). -/
def txRecorded (tx : RawTx) : List (String × Int) :=
  match tx.transaction with
  | none => []
  | some s =>
    if s = "" then []
    else
      let parts := splitChar '|' s.toList
      if parts.length < 3 then []
      else
        let bidAmount := parseFloatOr0 (String.mk (parts.getD 1 []))
        if bidAmount ≤ 0 then []
        else
          (((splitChar ',' (parts.getD 2 [])).map
              (fun t => String.mk (trimChars t))).filter
            (fun t => t ≠ "")).map (fun pid => (pid, bidAmount))

/-- The added-and-kept player ids of one transaction string (segment 3
split on `,`, trimmed, empties dropped). -/
def addedIdsOf (s : String) : List String :=
  ((splitChar ',' ((splitChar '|' s.toList).getD 2 [])).map
    (fun t => String.mk (trimChars t))).filter (fun t => t ≠ "")

/-- Whether an `Except` is a success. -/
def okb {α : Type} : Except String α → Bool
  | .ok _ => true
  | .error _ => false

/-- All five requests of a season succeeded. -/
def seasonOk (net : Network) (y : Nat) : Prop :=
  okb (net.rosters y 1) = true ∧ okb (net.rosters y 14) = true ∧
  okb (net.auctionResults y) = true ∧ okb (net.transactions y) = true ∧
  okb (net.players y) = true

/-- Some request of season `y` failed with error `e`. -/
def seasonErr (net : Network) (y : Nat) (e : String) : Prop :=
  net.rosters y 1 = .error e ∨ net.rosters y 14 = .error e ∨
  net.auctionResults y = .error e ∨ net.transactions y = .error e ∨
  net.players y = .error e

-- ── Lemmas: association-list maps ────────────────────────────────────

theorem mapGet_mapSet {α : Type} (m : List (String × α)) (k k' : String) (v : α) :
    mapGet (mapSet m k v) k' = if k = k' then some v else mapGet m k' := by
  induction m with
  | nil => by_cases h : k = k' <;> simp [mapSet, mapGet, h]
  | cons e rest ih =>
    obtain ⟨k0, v0⟩ := e
    by_cases h0 : k0 = k
    · subst h0
      by_cases h1 : k0 = k' <;> simp [mapSet, mapGet, h1]
    · by_cases h1 : k0 = k'
      · subst h1
        have hne : ¬ k = k0 := fun h => h0 h.symm
        simp [mapSet, mapGet, h0, hne]
      · simp [mapSet, mapGet, h0, h1, ih]

theorem mapGet_eq_some_mem {α : Type} {m : List (String × α)} {k : String} {v : α}
    (h : mapGet m k = some v) : (k, v) ∈ m := by
  induction m with
  | nil => simp [mapGet] at h
  | cons e rest ih =>
    obtain ⟨k0, v0⟩ := e
    rw [mapGet] at h
    by_cases h0 : k0 = k
    · subst h0
      simp at h
      simp [h]
    · simp [h0] at h
      exact List.mem_cons_of_mem _ (ih h)

theorem isSome_mapGet_of_mem {α : Type} {m : List (String × α)} {k : String} {v : α}
    (h : (k, v) ∈ m) : (mapGet m k).isSome := by
  induction m with
  | nil => simp at h
  | cons e rest ih =>
    obtain ⟨k0, v0⟩ := e
    rw [mapGet]
    by_cases h0 : k0 = k
    · simp [h0]
    · rcases List.mem_cons.mp h with he | hm
      · cases he; simp at h0
      · simp [h0, ih hm]

theorem isSome_mapGet_iff {α : Type} (m : List (String × α)) (k : String) :
    (mapGet m k).isSome ↔ ∃ v, (k, v) ∈ m := by
  constructor
  · intro h
    rcases Option.isSome_iff_exists.mp h with ⟨v, hv⟩
    exact ⟨v, mapGet_eq_some_mem hv⟩
  · rintro ⟨v, hv⟩
    exact isSome_mapGet_of_mem hv

theorem mapGet_eq_none_iff {α : Type} (m : List (String × α)) (k : String) :
    mapGet m k = none ↔ ∀ v, (k, v) ∉ m := by
  rw [← Option.not_isSome_iff_eq_none, isSome_mapGet_iff]
  simp

theorem mapGet_eq_of_nodup_mem {α : Type} {m : List (String × α)}
    (hnd : (m.map Prod.fst).Nodup) {k : String} {v : α} (h : (k, v) ∈ m) :
    mapGet m k = some v := by
  induction m with
  | nil => simp at h
  | cons e rest ih =>
    obtain ⟨k0, v0⟩ := e
    simp only [List.map_cons, List.nodup_cons] at hnd
    rw [mapGet]
    rcases List.mem_cons.mp h with he | hm
    · cases he; simp
    · by_cases h0 : k0 = k
      · subst h0
        exact absurd (List.mem_map_of_mem Prod.fst hm) hnd.1
      · simp [h0, ih hnd.2 hm]

theorem mapGet_eq_some_getOr0 {m : SalMap} {k : String}
    (h : (mapGet m k).isSome) : mapGet m k = some (getOr0 m k) := by
  rcases Option.isSome_iff_exists.mp h with ⟨v, hv⟩
  simp [getOr0, hv]

/-- Lookup in an object built as `l.map (fun p => (p, f p))` at a key of
`l`. -/
theorem mapGet_map_pair {α : Type} (l : List String) (f : String → α)
    {k : String} (h : k ∈ l) :
    mapGet (l.map fun p => (p, f p)) k = some (f k) := by
  induction l with
  | nil => simp at h
  | cons p rest ih =>
    rw [List.map_cons, mapGet]
    by_cases h0 : p = k
    · subst h0; simp
    · rcases List.mem_cons.mp h with he | hm
      · exact absurd he.symm h0
      · simp [h0, ih hm]

theorem mapGet_map_pair_inv {α : Type} {l : List String} {f : String → α}
    {k : String} {v : α}
    (h : mapGet (l.map fun p => (p, f p)) k = some v) : v = f k := by
  induction l with
  | nil => simp [mapGet] at h
  | cons p rest ih =>
    rw [List.map_cons, mapGet] at h
    by_cases h0 : p = k
    · subst h0; simp at h; exact h.symm
    · simp [h0] at h; exact ih h

-- ── Lemmas: the running maximum ──────────────────────────────────────

theorem maxAt_nil (k : String) (a : Int) : maxAt k [] a = a := rfl

theorem maxAt_cons (k : String) (e : String × Int) (es : List (String × Int))
    (a : Int) :
    maxAt k (e :: es) a = maxAt k es (if e.1 = k then max a e.2 else a) := rfl

theorem le_maxAt (k : String) (es : List (String × Int)) (a : Int) :
    a ≤ maxAt k es a := by
  induction es generalizing a with
  | nil => simp [maxAt_nil]
  | cons e es ih =>
    rw [maxAt_cons]
    refine le_trans ?_ (ih _)
    split
    · exact le_max_left _ _
    · exact le_refl _

theorem maxAt_le_of_mem {k : String} {v : Int} {es : List (String × Int)}
    (h : (k, v) ∈ es) (a : Int) : v ≤ maxAt k es a := by
  induction es generalizing a with
  | nil => simp at h
  | cons e es ih =>
    rw [maxAt_cons]
    rcases List.mem_cons.mp h with he | hm
    · have h1 : e.1 = k := by rw [← he]
      have h2 : e.2 = v := by rw [← he]
      rw [if_pos h1, h2]
      exact le_trans (le_max_right _ _) (le_maxAt _ _ _)
    · exact ih hm _

theorem maxAt_attained (k : String) (es : List (String × Int)) (a : Int) :
    maxAt k es a = a ∨ ∃ v, (k, v) ∈ es ∧ maxAt k es a = v := by
  induction es generalizing a with
  | nil => left; rfl
  | cons e es ih =>
    rw [maxAt_cons]
    split <;> rename_i hk
    · rcases ih (max a e.2) with hbase | ⟨v, hv, heq⟩
      · rw [hbase]
        rcases max_choice a e.2 with hm | hm
        · left; exact hm
        · right
          refine ⟨e.2, ?_, hm⟩
          have he : (k, e.2) = e := by
            rw [Prod.ext_iff]; exact ⟨hk.symm, rfl⟩
          rw [he]
          exact List.mem_cons_self _ _
      · right
        exact ⟨v, List.mem_cons_of_mem _ hv, heq⟩
    · rcases ih a with hbase | ⟨v, hv, heq⟩
      · left; exact hbase
      · right
        exact ⟨v, List.mem_cons_of_mem _ hv, heq⟩

theorem maxAt_of_forall_ne {k : String} {es : List (String × Int)}
    (h : ∀ v, (k, v) ∉ es) (a : Int) : maxAt k es a = a := by
  induction es generalizing a with
  | nil => rfl
  | cons e es ih =>
    rw [maxAt_cons]
    have hk : ¬ e.1 = k := by
      intro hk
      refine h e.2 ?_
      have he : (k, e.2) = e := by
        rw [Prod.ext_iff]; exact ⟨hk.symm, rfl⟩
      rw [he]
      exact List.mem_cons_self _ _
    rw [if_neg hk]
    exact ih (fun v hv => h v (List.mem_cons_of_mem _ hv)) a

theorem maxAt_of_nodup_mem {k : String} {v : Int} {es : List (String × Int)}
    (hnd : (es.map Prod.fst).Nodup) (h : (k, v) ∈ es) (a : Int) :
    maxAt k es a = max a v := by
  induction es generalizing a with
  | nil => simp at h
  | cons e es ih =>
    simp only [List.map_cons, List.nodup_cons] at hnd
    rw [maxAt_cons]
    rcases List.mem_cons.mp h with he | hm
    · have h1 : e.1 = k := by rw [← he]
      have h2 : e.2 = v := by rw [← he]
      rw [if_pos h1, h2]
      refine maxAt_of_forall_ne (fun w hw => ?_) _
      exact hnd.1 (h1 ▸ List.mem_map_of_mem Prod.fst hw)
    · have hk : ¬ e.1 = k := by
        intro hk
        exact hnd.1 (hk ▸ List.mem_map_of_mem Prod.fst hm)
      rw [if_neg hk]
      exact ih hnd.2 hm a

-- ── Lemmas: mergeInto and mergeList ──────────────────────────────────

theorem mergeInto_nil (t : SalMap) : mergeInto t [] = t := rfl

theorem mergeInto_cons (t : SalMap) (e : String × Int) (s : SalMap) :
    mergeInto t (e :: s) = mergeInto (setMax t e.1 e.2) s := rfl

theorem getOr0_setMax (m : SalMap) (k : String) (v : Int) (k' : String) :
    getOr0 (setMax m k v) k'
      = if k = k' then max (getOr0 m k) v else getOr0 m k' := by
  rw [setMax, getOr0, mapGet_mapSet]
  split
  · rename_i h; subst h; rfl
  · rfl

theorem mapGet_setMax_isSome (m : SalMap) (k : String) (v : Int) (k' : String) :
    (mapGet (setMax m k v) k').isSome ↔ k = k' ∨ (mapGet m k').isSome := by
  rw [setMax, mapGet_mapSet]
  split <;> rename_i h <;> simp [h]

theorem getOr0_mergeInto (t s : SalMap) (k : String) :
    getOr0 (mergeInto t s) k = maxAt k s (getOr0 t k) := by
  induction s generalizing t with
  | nil => rfl
  | cons e s ih =>
    rw [mergeInto_cons, maxAt_cons, ih, getOr0_setMax]
    by_cases h : e.1 = k
    · subst h; simp
    · have hne : ¬ e.1 = k := h
      rw [if_neg hne, if_neg hne]

theorem isSome_mergeInto (t s : SalMap) (k : String) :
    (mapGet (mergeInto t s) k).isSome
      ↔ (mapGet t k).isSome ∨ ∃ v, (k, v) ∈ s := by
  induction s generalizing t with
  | nil => simp [mergeInto_nil]
  | cons e s ih =>
    rw [mergeInto_cons, ih, mapGet_setMax_isSome]
    constructor
    · rintro ((hk | hs) | ⟨v, hv⟩)
      · right
        refine ⟨e.2, ?_⟩
        have he : (k, e.2) = e := by rw [Prod.ext_iff]; exact ⟨hk.symm, rfl⟩
        rw [he]; exact List.mem_cons_self _ _
      · left; exact hs
      · right; exact ⟨v, List.mem_cons_of_mem _ hv⟩
    · rintro (hs | ⟨v, hv⟩)
      · left; right; exact hs
      · rcases List.mem_cons.mp hv with he | hm
        · left; left; rw [← he]
        · right; exact ⟨v, hm⟩

theorem getOr0_foldl_mergeInto (maps : List SalMap) (acc : SalMap) (k : String) :
    getOr0 (maps.foldl mergeInto acc) k
      = maps.foldl (fun a m => maxAt k m a) (getOr0 acc k) := by
  induction maps generalizing acc with
  | nil => rfl
  | cons m maps ih =>
    rw [List.foldl_cons, List.foldl_cons, ih, getOr0_mergeInto]

theorem isSome_foldl_mergeInto (maps : List SalMap) (acc : SalMap) (k : String) :
    (mapGet (maps.foldl mergeInto acc) k).isSome
      ↔ (mapGet acc k).isSome ∨ ∃ m ∈ maps, ∃ v, (k, v) ∈ m := by
  induction maps generalizing acc with
  | nil => simp
  | cons m maps ih =>
    rw [List.foldl_cons, ih, isSome_mergeInto]
    constructor
    · rintro ((ha | ⟨v, hv⟩) | ⟨m', hm', v, hv⟩)
      · left; exact ha
      · right; exact ⟨m, List.mem_cons_self _ _, v, hv⟩
      · right; exact ⟨m', List.mem_cons_of_mem _ hm', v, hv⟩
    · rintro (ha | ⟨m', hm', v, hv⟩)
      · left; left; exact ha
      · rcases List.mem_cons.mp hm' with he | hmm
        · left; right; exact ⟨v, he ▸ hv⟩
        · right; exact ⟨m', hmm, v, hv⟩

theorem getOr0_mergeList (maps : List SalMap) (k : String) :
    getOr0 (mergeList maps) k = allMax maps k :=
  getOr0_foldl_mergeInto maps [] k

theorem isSome_mergeList (maps : List SalMap) (k : String) :
    (mapGet (mergeList maps) k).isSome ↔ ∃ m ∈ maps, ∃ v, (k, v) ∈ m := by
  rw [mergeList, isSome_foldl_mergeInto]
  simp [mapGet]

-- ── Lemmas: allMax ───────────────────────────────────────────────────

theorem le_foldl_maxAt (maps : List SalMap) (k : String) (a : Int) :
    a ≤ maps.foldl (fun a m => maxAt k m a) a := by
  induction maps generalizing a with
  | nil => simp
  | cons m maps ih =>
    rw [List.foldl_cons]
    exact le_trans (le_maxAt k m a) (ih _)

theorem foldl_maxAt_le_of_mem {maps : List SalMap} {m : SalMap} {k : String}
    {v : Int} (hm : m ∈ maps) (hv : (k, v) ∈ m) (a : Int) :
    v ≤ maps.foldl (fun a m => maxAt k m a) a := by
  induction maps generalizing a with
  | nil => simp at hm
  | cons m' maps ih =>
    rw [List.foldl_cons]
    rcases List.mem_cons.mp hm with he | hmm
    · subst he
      exact le_trans (maxAt_le_of_mem hv a) (le_foldl_maxAt _ _ _)
    · exact ih hmm _

theorem foldl_maxAt_attained (maps : List SalMap) (k : String) (a : Int) :
    maps.foldl (fun a m => maxAt k m a) a = a
      ∨ ∃ m ∈ maps, ∃ v, (k, v) ∈ m
          ∧ maps.foldl (fun a m => maxAt k m a) a = v := by
  induction maps generalizing a with
  | nil => left; rfl
  | cons m maps ih =>
    rw [List.foldl_cons]
    rcases ih (maxAt k m a) with hbase | ⟨m', hm', v, hv, heq⟩
    · rw [hbase]
      rcases maxAt_attained k m a with h0 | ⟨v, hv, heq⟩
      · left; exact h0
      · right; exact ⟨m, List.mem_cons_self _ _, v, hv, heq⟩
    · right; exact ⟨m', List.mem_cons_of_mem _ hm', v, hv, heq⟩

theorem allMax_nonneg (maps : List SalMap) (k : String) : 0 ≤ allMax maps k :=
  le_foldl_maxAt maps k 0

theorem allMax_ge {maps : List SalMap} {m : SalMap} {k : String} {v : Int}
    (hm : m ∈ maps) (hv : (k, v) ∈ m) : v ≤ allMax maps k :=
  foldl_maxAt_le_of_mem hm hv 0

theorem allMax_attained (maps : List SalMap) (k : String) :
    allMax maps k = 0
      ∨ ∃ m ∈ maps, ∃ v, (k, v) ∈ m ∧ allMax maps k = v :=
  foldl_maxAt_attained maps k 0

theorem allMax_perm {maps₁ maps₂ : List SalMap} (h : maps₁.Perm maps₂)
    (k : String) : allMax maps₁ k = allMax maps₂ k := by
  have hle : ∀ {l₁ l₂ : List SalMap}, l₁.Perm l₂ → allMax l₁ k ≤ allMax l₂ k := by
    intro l₁ l₂ hp
    rcases allMax_attained l₁ k with h0 | ⟨m, hm, v, hv, heq⟩
    · rw [h0]; exact allMax_nonneg _ _
    · rw [heq]; exact allMax_ge (hp.mem_iff.mp hm) hv
  exact le_antisymm (hle h) (hle h.symm)

theorem mapGet_mergeList_perm {maps₁ maps₂ : List SalMap} (h : maps₁.Perm maps₂)
    (k : String) : mapGet (mergeList maps₁) k = mapGet (mergeList maps₂) k := by
  have hsome : (mapGet (mergeList maps₁) k).isSome
      ↔ (mapGet (mergeList maps₂) k).isSome := by
    rw [isSome_mergeList, isSome_mergeList]
    constructor
    · rintro ⟨m, hm, v, hv⟩; exact ⟨m, h.mem_iff.mp hm, v, hv⟩
    · rintro ⟨m, hm, v, hv⟩; exact ⟨m, h.mem_iff.mpr hm, v, hv⟩
  rcases h1 : mapGet (mergeList maps₁) k with _ | v₁
  · rcases h2 : mapGet (mergeList maps₂) k with _ | v₂
    · rfl
    · rw [h1, h2] at hsome; simp at hsome
  · rcases h2 : mapGet (mergeList maps₂) k with _ | v₂
    · rw [h1, h2] at hsome; simp at hsome
    · have e1 : v₁ = getOr0 (mergeList maps₁) k := by simp [getOr0, h1]
      have e2 : v₂ = getOr0 (mergeList maps₂) k := by simp [getOr0, h2]
      rw [e1, e2, getOr0_mergeList, getOr0_mergeList, allMax_perm h]

/-- The merged value characterization used by C2: every source value is
a lower bound, the merged value is attained by some source, and a key is
absent iff it is absent from every source. -/
theorem mergeList_char (maps : List SalMap)
    (hpos : ∀ m ∈ maps, ∀ e ∈ m, 0 ≤ e.2)
    (hnd : ∀ m ∈ maps, (m.map Prod.fst).Nodup) (k : String) :
    (∀ m ∈ maps, ∀ v, mapGet m k = some v → v ≤ getOr0 (mergeList maps) k) ∧
    ((∃ m ∈ maps, (mapGet m k).isSome) →
        ∃ m ∈ maps, mapGet m k = some (getOr0 (mergeList maps) k)) ∧
    (mapGet (mergeList maps) k = none ↔ ∀ m ∈ maps, mapGet m k = none) := by
  refine ⟨?_, ?_, ?_⟩
  · intro m hm v hv
    rw [getOr0_mergeList]
    exact allMax_ge hm (mapGet_eq_some_mem hv)
  · rintro ⟨m, hm, hms⟩
    rcases Option.isSome_iff_exists.mp hms with ⟨v₀, hv₀⟩
    have hv₀m := mapGet_eq_some_mem hv₀
    have hge : v₀ ≤ allMax maps k := allMax_ge hm hv₀m
    have h0 : 0 ≤ v₀ := hpos m hm _ hv₀m
    rw [getOr0_mergeList]
    rcases allMax_attained maps k with hz | ⟨m', hm', v, hv, heq⟩
    · refine ⟨m, hm, ?_⟩
      rw [hz]
      have hv0 : v₀ = 0 := le_antisymm (hz ▸ hge) h0
      rw [← hv0]
      exact hv₀
    · refine ⟨m', hm', ?_⟩
      rw [heq]
      exact mapGet_eq_of_nodup_mem (hnd m' hm') hv
  · rw [← Option.not_isSome_iff_eq_none, isSome_mergeList]
    constructor
    · intro hno m hm
      rw [← Option.not_isSome_iff_eq_none, isSome_mapGet_iff]
      rintro ⟨v, hv⟩
      exact hno ⟨m, hm, v, hv⟩
    · rintro hall ⟨m, hm, v, hv⟩
      have hn := hall m hm
      rw [mapGet_eq_none_iff] at hn
      exact hn v hv

/-- **C1**: the reconciliation merge is order-independent.  For every
playerId present in either map, `mergeInto` assigns
`max(target.get(id, 0), source.get(id, 0))` (for maps with the
non-negative values and duplicate-free keys every real salary map has),
and merging any list of salary maps in any permutation of invocation
order yields an identical merged mapping — same key set, same value per
key, i.e. equal `mapGet` at every key. -/
theorem merge_contract_and_order_independence :
    (∀ (target source : SalMap) (k : String),
        (∀ e ∈ target, 0 ≤ e.2) → (source.map Prod.fst).Nodup →
        ((mapGet (mergeInto target source) k).isSome ↔
          (mapGet target k).isSome ∨ (mapGet source k).isSome) ∧
        (((mapGet target k).isSome ∨ (mapGet source k).isSome) →
          mapGet (mergeInto target source) k
            = some (max (getOr0 target k) (getOr0 source k)))) ∧
    (∀ (maps₁ maps₂ : List SalMap), maps₁.Perm maps₂ →
        ∀ k, mapGet (mergeList maps₁) k = mapGet (mergeList maps₂) k) := by
  constructor
  · intro target source k ht hnd
    constructor
    · rw [isSome_mergeInto, ← isSome_mapGet_iff]
    · intro h
      have hsome : (mapGet (mergeInto target source) k).isSome := by
        rw [isSome_mergeInto, ← isSome_mapGet_iff]
        exact h
      rw [mapGet_eq_some_getOr0 hsome, getOr0_mergeInto]
      congr 1
      rcases hs : mapGet source k with _ | sv
      · have hnm : ∀ v, (k, v) ∉ source := (mapGet_eq_none_iff source k).mp hs
        rw [maxAt_of_forall_ne hnm]
        have h0 : getOr0 source k = 0 := by simp [getOr0, hs]
        rw [h0]
        rcases h with htgt | hsrc
        · rcases Option.isSome_iff_exists.mp htgt with ⟨tv, htv⟩
          have hmem := mapGet_eq_some_mem htv
          have htv0 : 0 ≤ tv := ht _ hmem
          have hg : getOr0 target k = tv := by simp [getOr0, htv]
          rw [hg]
          exact (max_eq_left htv0).symm
        · rw [hs] at hsrc
          simp at hsrc
      · have hmem := mapGet_eq_some_mem hs
        rw [maxAt_of_nodup_mem hnd hmem]
        have hg : getOr0 source k = sv := by simp [getOr0, hs]
        rw [hg]
  · intro maps₁ maps₂ hp k
    exact mapGet_mergeList_perm hp k

/-- Witness for C1 at concrete maps: the hypotheses hold and the merge
contract plus a concrete permutation instance follow. -/
theorem merge_contract_and_order_independence_witness :
    ((∀ e ∈ ([("a", 3)] : SalMap), 0 ≤ e.2) ∧
      ((([("a", 7), ("b", 2)] : SalMap).map Prod.fst).Nodup) ∧
      ([[("a", 3)], [("a", 7), ("b", 2)]] : List SalMap).Perm
        [[("a", 7), ("b", 2)], [("a", 3)]] ∧
      (mapGet ([("a", 3)] : SalMap) "a").isSome) ∧
    mapGet (mergeInto [("a", 3)] [("a", 7), ("b", 2)]) "a"
        = some (max (getOr0 [("a", 3)] "a") (getOr0 [("a", 7), ("b", 2)] "a")) ∧
    mapGet (mergeList [[("a", 3)], [("a", 7), ("b", 2)]]) "a"
        = mapGet (mergeList [[("a", 7), ("b", 2)], [("a", 3)]]) "a" := by
  refine ⟨⟨by decide, by decide, ?_, by decide⟩, ?_, ?_⟩
  · exact List.Perm.swap _ _ _
  · exact (merge_contract_and_order_independence.1
      [("a", 3)] [("a", 7), ("b", 2)] "a" (by decide) (by decide)).2
      (Or.inl (by decide))
  · exact merge_contract_and_order_independence.2
      [[("a", 3)], [("a", 7), ("b", 2)]] [[("a", 7), ("b", 2)], [("a", 3)]]
      (List.Perm.swap _ _ _) "a"

/-- **C2**: after merging the four per-season salary mappings, every
player's merged amount is at least that player's value in every source
containing them, equals some (hence the maximal) source's value whenever
any source contains them, and a playerId is absent from the merged
mapping iff it is absent from all four sources. -/
theorem merged_max_monotonicity :
    ∀ (m1 m2 m3 m4 : SalMap),
      (∀ m ∈ [m1, m2, m3, m4], ∀ e ∈ m, 0 ≤ e.2) →
      (∀ m ∈ [m1, m2, m3, m4], (m.map Prod.fst).Nodup) →
      ∀ k,
        (∀ m ∈ [m1, m2, m3, m4], ∀ v, mapGet m k = some v →
            v ≤ getOr0 (mergeList [m1, m2, m3, m4]) k) ∧
        ((∃ m ∈ [m1, m2, m3, m4], (mapGet m k).isSome) →
          ∃ m ∈ [m1, m2, m3, m4],
            mapGet m k = some (getOr0 (mergeList [m1, m2, m3, m4]) k)) ∧
        (mapGet (mergeList [m1, m2, m3, m4]) k = none ↔
          ∀ m ∈ [m1, m2, m3, m4], mapGet m k = none) := by
  intro m1 m2 m3 m4 hpos hnd k
  exact mergeList_char [m1, m2, m3, m4] hpos hnd k

/-- Witness for C2 at concrete maps: the merged amount dominates a
source value, is attained by a source, and an id absent everywhere is
absent from the merge. -/
theorem merged_max_monotonicity_witness :
    (3 : Int) ≤ getOr0 (mergeList [[("a", 3)], [("a", 7)], [], [("b", 2)]]) "a" ∧
    (∃ m ∈ ([[("a", 3)], [("a", 7)], [], [("b", 2)]] : List SalMap),
        mapGet m "a"
          = some (getOr0 (mergeList [[("a", 3)], [("a", 7)], [], [("b", 2)]]) "a")) ∧
    mapGet (mergeList [[("a", 3)], [("a", 7)], [], [("b", 2)]]) "zz" = none := by
  have h := merged_max_monotonicity [("a", 3)] [("a", 7)] [] [("b", 2)]
    (by decide) (by decide)
  refine ⟨?_, ?_, ?_⟩
  · exact (h "a").1 [("a", 3)] (by decide) 3 (by decide)
  · exact (h "a").2.1 ⟨[("a", 3)], by decide, by decide⟩
  · exact (h "zz").2.2.mpr (by decide)

-- ── Lemmas: the stable descending sort ───────────────────────────────

theorem insertDesc_eq (x : RankedEntry) (l : List RankedEntry) :
    insertDesc x l
      = l.takeWhile (fun y => decide (x.salary < y.salary))
        ++ x :: l.dropWhile (fun y => decide (x.salary < y.salary)) := by
  induction l with
  | nil => rfl
  | cons y ys ih =>
    rw [insertDesc]
    by_cases h : x.salary < y.salary
    · simp only [if_pos h, List.takeWhile_cons, List.dropWhile_cons]
      simp [h, ih]
    · simp only [if_neg h, List.takeWhile_cons, List.dropWhile_cons]
      simp [h]

theorem mem_insertDesc {z x : RankedEntry} {l : List RankedEntry} :
    z ∈ insertDesc x l ↔ z = x ∨ z ∈ l := by
  rw [insertDesc_eq]
  have hl : l.takeWhile (fun y => decide (x.salary < y.salary))
      ++ l.dropWhile (fun y => decide (x.salary < y.salary)) = l :=
    List.takeWhile_append_dropWhile _ _
  constructor
  · intro h
    rcases List.mem_append.mp h with h1 | h2
    · right; rw [← hl]; exact List.mem_append.mpr (Or.inl h1)
    · rcases List.mem_cons.mp h2 with he | h3
      · left; exact he
      · right; rw [← hl]; exact List.mem_append.mpr (Or.inr h3)
  · intro h
    rcases h with he | hm
    · exact List.mem_append.mpr (Or.inr (he ▸ List.mem_cons_self _ _))
    · rw [← hl] at hm
      rcases List.mem_append.mp hm with h1 | h2
      · exact List.mem_append.mpr (Or.inl h1)
      · exact List.mem_append.mpr (Or.inr (List.mem_cons_of_mem _ h2))

theorem pairwise_insertDesc {x : RankedEntry} {l : List RankedEntry}
    (h : List.Pairwise (fun a b => b.salary ≤ a.salary) l) :
    List.Pairwise (fun a b => b.salary ≤ a.salary) (insertDesc x l) := by
  induction l with
  | nil => simp [insertDesc]
  | cons y ys ih =>
    rcases List.pairwise_cons.mp h with ⟨hy, hys⟩
    rw [insertDesc]
    by_cases hxy : x.salary < y.salary
    · rw [if_pos hxy, List.pairwise_cons]
      constructor
      · intro z hz
        rcases mem_insertDesc.mp hz with rfl | hzys
        · exact le_of_lt hxy
        · exact hy z hzys
      · exact ih hys
    · rw [if_neg hxy, List.pairwise_cons]
      constructor
      · intro z hz
        rcases List.mem_cons.mp hz with rfl | hzys
        · exact le_of_not_lt hxy
        · exact le_trans (hy z hzys) (le_of_not_lt hxy)
      · exact h

theorem sortDesc_pairwise (l : List RankedEntry) :
    List.Pairwise (fun a b => b.salary ≤ a.salary) (sortDesc l) := by
  induction l with
  | nil => simp [sortDesc]
  | cons x xs ih => exact pairwise_insertDesc ih

theorem filter_insertDesc (x : RankedEntry) (l : List RankedEntry) (v : Int) :
    (insertDesc x l).filter (fun e => decide (e.salary = v))
      = if x.salary = v
        then x :: l.filter (fun e => decide (e.salary = v))
        else l.filter (fun e => decide (e.salary = v)) := by
  have htw : (l.takeWhile (fun y => decide (x.salary < y.salary))).filter
      (fun e => decide (e.salary = v)) = []
      ∨ ¬ x.salary = v := by
    by_cases hx : x.salary = v
    · left
      rw [List.filter_eq_nil_iff]
      intro a ha
      have hgt := List.mem_takeWhile_imp ha
      simp only [decide_eq_true_eq] at hgt ⊢
      intro hav
      rw [hav, ← hx] at hgt
      exact lt_irrefl _ hgt
    · right; exact hx
  rw [insertDesc_eq, List.filter_append, List.filter_cons]
  have hsplit : l.filter (fun e => decide (e.salary = v))
      = (l.takeWhile (fun y => decide (x.salary < y.salary))).filter
          (fun e => decide (e.salary = v))
        ++ (l.dropWhile (fun y => decide (x.salary < y.salary))).filter
          (fun e => decide (e.salary = v)) := by
    rw [← List.filter_append, List.takeWhile_append_dropWhile]
  by_cases hx : x.salary = v
  · rcases htw with h0 | hc
    · rw [if_pos hx, hsplit, h0, List.nil_append]
      simp [hx]
    · exact absurd hx hc
  · rw [if_neg hx, hsplit]
    simp [hx]

theorem sortDesc_filter (l : List RankedEntry) (v : Int) :
    (sortDesc l).filter (fun e => decide (e.salary = v))
      = l.filter (fun e => decide (e.salary = v)) := by
  induction l with
  | nil => rfl
  | cons x xs ih =>
    rw [sortDesc, filter_insertDesc, List.filter_cons]
    by_cases hx : x.salary = v <;> simp [hx, ih]

/-- **C3**: for every reconciled salary mapping and metadata mapping and
every position bucket of the ranking output, the bucket has length at
most `TOP_N` (30), is sorted non-increasing by amount, and keeps entries
of equal amount in their original encounter order: its restriction to
any amount `v` is a prefix of the encounter-ordered bucket's restriction
to `v` (stable sort then truncation). -/
theorem rank_bounded_sorted_stable :
    ∀ (salaryMap : SalMap) (playerMap : List (String × PlayerMeta))
      (pos : String) (out : List RankedEntry),
      mapGet (rankByPosition salaryMap playerMap) pos = some out →
      out.length ≤ TOP_N ∧
      List.Pairwise (fun a b => b.salary ≤ a.salary) out ∧
      ∀ v : Int, ∃ rest,
        out.filter (fun e => decide (e.salary = v)) ++ rest
          = (bucketEntries salaryMap playerMap pos).filter
              (fun e => decide (e.salary = v)) := by
  intro sl pm pos out h
  rw [rankByPosition] at h
  have hout := mapGet_map_pair_inv h
  subst hout
  refine ⟨?_, ?_, ?_⟩
  · rw [List.length_take]
    exact min_le_left _ _
  · exact List.Pairwise.sublist (List.take_sublist _ _) (sortDesc_pairwise _)
  · intro v
    refine ⟨((sortDesc (bucketEntries sl pm pos)).drop TOP_N).filter
      (fun e => decide (e.salary = v)), ?_⟩
    rw [← List.filter_append, List.take_append_drop, sortDesc_filter]

/-- Witness for C3 at a concrete two-player salary map: the ranking
output for QB satisfies the bound, sortedness and stability. -/
theorem rank_bounded_sorted_stable_witness :
    mapGet (rankByPosition [("p1", 5), ("p2", 9)]
        [("p1", ⟨"A", "QB"⟩), ("p2", ⟨"B", "QB"⟩)]) "QB"
      = some [⟨"B", 9⟩, ⟨"A", 5⟩] ∧
    ([⟨"B", 9⟩, ⟨"A", 5⟩] : List RankedEntry).length ≤ TOP_N ∧
    List.Pairwise (fun a b => b.salary ≤ a.salary)
      ([⟨"B", 9⟩, ⟨"A", 5⟩] : List RankedEntry) ∧
    ∀ v : Int, ∃ rest,
      ([⟨"B", 9⟩, ⟨"A", 5⟩] : List RankedEntry).filter
          (fun e => decide (e.salary = v)) ++ rest
        = (bucketEntries [("p1", 5), ("p2", 9)]
            [("p1", ⟨"A", "QB"⟩), ("p2", ⟨"B", "QB"⟩)] "QB").filter
            (fun e => decide (e.salary = v)) :=
  ⟨by decide,
    rank_bounded_sorted_stable [("p1", 5), ("p2", 9)]
      [("p1", ⟨"A", "QB"⟩), ("p2", ⟨"B", "QB"⟩)] "QB"
      [⟨"B", 9⟩, ⟨"A", 5⟩] (by decide)⟩

/-- **C4**: the ranking output always has exactly the tracked positions
as its keys, in order, and a position whose bucket gathers zero
qualifying players is mapped to the empty sequence — never omitted. -/
theorem empty_buckets_present :
    ∀ (salaryMap : SalMap) (playerMap : List (String × PlayerMeta)),
      ((rankByPosition salaryMap playerMap).map Prod.fst = POSITIONS) ∧
      ∀ pos, pos ∈ POSITIONS →
        mapGet (rankByPosition salaryMap playerMap) pos
          = some ((sortDesc (bucketEntries salaryMap playerMap pos)).take TOP_N)
        ∧ (bucketEntries salaryMap playerMap pos = [] →
            mapGet (rankByPosition salaryMap playerMap) pos = some []) := by
  intro sl pm
  constructor
  · rw [rankByPosition, List.map_map]
    exact List.map_id POSITIONS
  · intro pos hpos
    have hg := mapGet_map_pair POSITIONS
      (fun pos => (sortDesc (bucketEntries sl pm pos)).take TOP_N) hpos
    constructor
    · rw [rankByPosition]
      exact hg
    · intro hempty
      rw [rankByPosition, hg]
      simp [hempty, sortDesc]

/-- Witness for C4: with no salary data at all, every tracked position
is still present and maps to the empty bucket. -/
theorem empty_buckets_present_witness :
    ((rankByPosition [] []).map Prod.fst = POSITIONS) ∧
    ("QB" ∈ POSITIONS ∧ bucketEntries [] [] "QB" = []) ∧
    mapGet (rankByPosition [] []) "QB" = some [] := by
  have h := empty_buckets_present [] []
  exact ⟨h.1, ⟨by decide, rfl⟩, (h.2 "QB" (by decide)).2 rfl⟩

-- ── Lemmas: formatName ───────────────────────────────────────────────

theorem nameMatch_eq_none_of_no_comma {cs : List Char} (h : ',' ∉ cs) :
    nameMatch cs = none := by
  have htake : cs.takeWhile (fun c => decide (c ≠ ',')) = cs := by
    rw [List.takeWhile_eq_self_iff]
    intro a ha
    simp only [decide_eq_true_eq]
    intro he
    exact h (he ▸ ha)
  rw [nameMatch]
  simp only [htake]
  by_cases hlen : cs.length = 0 <;> simp [hlen]

/-- **C6**: `formatName("Smith, John")` is `"John Smith"`; an input with
no comma (such as `"Buffalo Bills"`) is returned unchanged; a missing or
empty input yields the placeholder `"Unknown"`. -/
theorem formatName_round_trip :
    formatName (some "Smith, John") = "John Smith" ∧
    (∀ s : String, s ≠ "" → ',' ∉ s.toList → formatName (some s) = s) ∧
    formatName (some "Buffalo Bills") = "Buffalo Bills" ∧
    formatName none = "Unknown" ∧
    formatName (some "") = "Unknown" := by
  refine ⟨by decide, ?_, by decide, by decide, by decide⟩
  intro s hne hc
  rw [formatName]
  rw [if_neg hne, nameMatch_eq_none_of_no_comma hc]

/-- Witness for C6 on a concrete comma-free input. -/
theorem formatName_round_trip_witness :
    (("Buffalo Bills" : String) ≠ "" ∧ ',' ∉ ("Buffalo Bills" : String).toList) ∧
    formatName (some "Buffalo Bills") = "Buffalo Bills" :=
  ⟨⟨by decide, by decide⟩,
    formatName_round_trip.2.1 "Buffalo Bills" (by decide) (by decide)⟩

-- ── Lemmas: normalizePosition ────────────────────────────────────────

theorem mapGet_positionMap_mem {u r : String}
    (h : mapGet positionMap u = some r) : r ∈ POSITIONS := by
  have hm := mapGet_eq_some_mem h
  have hr : r ∈ positionMap.map Prod.snd := List.mem_map_of_mem Prod.snd hm
  have he : positionMap.map Prod.snd = POSITIONS := by decide
  rw [he] at hr
  exact hr

theorem mapGet_positionMap_eq_none {u : String}
    (h : u ∉ (["QB", "RB", "WR", "TE", "PK", "DEF"] : List String)) :
    mapGet positionMap u = none := by
  rcases hm : mapGet positionMap u with _ | r
  · rfl
  · exfalso
    have hu : u ∈ positionMap.map Prod.fst :=
      List.mem_map_of_mem Prod.fst (mapGet_eq_some_mem hm)
    have he : positionMap.map Prod.fst
        = (["QB", "RB", "WR", "TE", "PK", "DEF"] : List String) := by decide
    rw [he] at hu
    exact h hu

theorem normalizePosition_of_ne (s : String) (h0 : s ≠ "")
    (h1 : s ∉ EXCLUDED_POSITIONS) :
    normalizePosition (some s)
      = if jsToUpper s = "DEF" then some "Def"
        else if jsToUpper s = "K" then some "PK"
        else mapGet positionMap (jsToUpper s) := by
  simp only [normalizePosition, if_neg h0, if_neg h1]

theorem normalizePosition_excluded {s : String} (h : s ∈ EXCLUDED_POSITIONS) :
    normalizePosition (some s) = none := by
  by_cases h0 : s = "" <;> simp only [normalizePosition, h0, h] <;> simp [h]

/-- For every deny-listed code, the uppercase fall-through chain also
rejects it (no case variant of an excluded code reaches a recognized
position). -/
theorem normUpper_excluded_none :
    ∀ d ∈ EXCLUDED_POSITIONS,
      (if jsToUpper d = "DEF" then some "Def"
        else if jsToUpper d = "K" then some "PK"
        else mapGet positionMap (jsToUpper d)) = none := by decide

/-- **C7**: position normalization is case-insensitive and closed:
`"k"` maps to `PK`, `"DEF"` to `Def`, `QB/RB/WR/TE` pass through
case-normalized, every case variant of a deny-listed code (e.g. `"CB"`)
and every string outside the recognized set (e.g. `"XYZ"`) yields
`null`, and every non-null result is one of the six tracked
positions. -/
theorem position_normalization_closed :
    normalizePosition (some "k") = some "PK" ∧
    normalizePosition (some "DEF") = some "Def" ∧
    (∀ s : String, jsToUpper s ∈ (["QB", "RB", "WR", "TE"] : List String) →
        normalizePosition (some s) = some (jsToUpper s)) ∧
    (∀ s d : String, d ∈ EXCLUDED_POSITIONS → jsToUpper s = jsToUpper d →
        normalizePosition (some s) = none) ∧
    normalizePosition (some "CB") = none ∧
    normalizePosition (some "XYZ") = none ∧
    (∀ s : String,
        jsToUpper s ∉ (["QB", "RB", "WR", "TE", "PK", "DEF", "K"] : List String) →
        normalizePosition (some s) = none) ∧
    (∀ (o : Option String) (r : String),
        normalizePosition o = some r → r ∈ POSITIONS) := by
  refine ⟨by decide, by decide, ?_, ?_, by decide, by decide, ?_, ?_⟩
  · intro s hs
    have hne : s ≠ "" := by
      intro h
      subst h
      exact absurd hs (by decide)
    have hnex : s ∉ EXCLUDED_POSITIONS := by
      intro hmem
      have hup : jsToUpper s ∈ EXCLUDED_POSITIONS.map jsToUpper :=
        List.mem_map_of_mem _ hmem
      have hdis : ∀ u ∈ EXCLUDED_POSITIONS.map jsToUpper,
          u ∉ (["QB", "RB", "WR", "TE"] : List String) := by decide
      exact hdis _ hup hs
    rw [normalizePosition_of_ne s hne hnex]
    have hval : ∀ u ∈ (["QB", "RB", "WR", "TE"] : List String),
        (if u = "DEF" then some "Def"
          else if u = "K" then some "PK"
          else mapGet positionMap u) = some u := by decide
    exact hval _ hs
  · intro s d hd hupper
    by_cases h0 : s = ""
    · subst h0; decide
    · by_cases h1 : s ∈ EXCLUDED_POSITIONS
      · exact normalizePosition_excluded h1
      · rw [normalizePosition_of_ne s h0 h1, hupper]
        exact normUpper_excluded_none d hd
  · intro s hs
    by_cases h0 : s = ""
    · subst h0; decide
    · by_cases h1 : s ∈ EXCLUDED_POSITIONS
      · exact normalizePosition_excluded h1
      · rw [normalizePosition_of_ne s h0 h1]
        have hd : ¬ jsToUpper s = "DEF" := fun h =>
          hs (by rw [h]; decide)
        have hk : ¬ jsToUpper s = "K" := fun h =>
          hs (by rw [h]; decide)
        rw [if_neg hd, if_neg hk]
        refine mapGet_positionMap_eq_none ?_
        intro hmem
        rcases (by simpa using hmem :
            jsToUpper s = "QB" ∨ jsToUpper s = "RB" ∨ jsToUpper s = "WR"
              ∨ jsToUpper s = "TE" ∨ jsToUpper s = "PK" ∨ jsToUpper s = "DEF")
          with h | h | h | h | h | h <;>
          exact hs (by rw [h]; decide)
  · intro o r h
    cases o with
    | none => simp [normalizePosition] at h
    | some s =>
      by_cases h0 : s = ""
      · subst h0; simp [normalizePosition] at h
      · by_cases h1 : s ∈ EXCLUDED_POSITIONS
        · rw [normalizePosition_excluded h1] at h
          exact absurd h (by simp)
        · rw [normalizePosition_of_ne s h0 h1] at h
          split at h
          · cases h; decide
          · split at h
            · cases h; decide
            · exact mapGet_positionMap_mem h

/-- Witness for C7: case variants of a deny-listed code are rejected,
and a recognized lowercase code passes through case-normalized. -/
theorem position_normalization_closed_witness :
    ("CB" ∈ EXCLUDED_POSITIONS ∧ jsToUpper "cb" = jsToUpper "CB" ∧
      jsToUpper "qb" ∈ (["QB", "RB", "WR", "TE"] : List String)) ∧
    normalizePosition (some "cb") = none ∧
    normalizePosition (some "qb") = some "QB" := by
  refine ⟨⟨by decide, by decide, by decide⟩, ?_, ?_⟩
  · exact position_normalization_closed.2.2.2.1 "cb" "CB" (by decide) (by decide)
  · have h := position_normalization_closed.2.2.1 "qb" (by decide)
    rw [h]
    decide

-- ── Lemmas: extractBbid ──────────────────────────────────────────────

theorem mergeInto_append (m : SalMap) (a b : List (String × Int)) :
    mergeInto m (a ++ b) = mergeInto (mergeInto m a) b :=
  List.foldl_append _ _ _ _

/-- The per-transaction body of the `extractBbid` loop records exactly
`txRecorded tx` through the set-max accumulator. -/
theorem foldl_bbid_step (l : List RawTx) (m : SalMap) :
    l.foldl (fun m tx =>
      match tx.transaction with
      | none => m
      | some s =>
        if s = "" then m
        else
          let parts := splitChar '|' s.toList
          if parts.length < 3 then m
          else
            let bidAmount := parseFloatOr0 (String.mk (parts.getD 1 []))
            if bidAmount ≤ 0 then m
            else
              let addedIds :=
                ((splitChar ',' (parts.getD 2 [])).map
                  (fun t => String.mk (trimChars t))).filter (fun t => t ≠ "")
              addedIds.foldl (fun m' pid => setMax m' pid bidAmount) m) m
      = mergeInto m (l.flatMap txRecorded) := by
  induction l generalizing m with
  | nil => rfl
  | cons tx l ih =>
    rw [List.foldl_cons, List.flatMap_cons]
    have hstep : ∀ (m : SalMap),
        (match tx.transaction with
          | none => m
          | some s =>
            if s = "" then m
            else
              let parts := splitChar '|' s.toList
              if parts.length < 3 then m
              else
                let bidAmount := parseFloatOr0 (String.mk (parts.getD 1 []))
                if bidAmount ≤ 0 then m
                else
                  let addedIds :=
                    ((splitChar ',' (parts.getD 2 [])).map
                      (fun t => String.mk (trimChars t))).filter (fun t => t ≠ "")
                  addedIds.foldl (fun m' pid => setMax m' pid bidAmount) m)
          = mergeInto m (txRecorded tx) := by
      intro m
      rcases tx with ⟨otx⟩
      cases otx with
      | none => rfl
      | some s =>
        simp only [txRecorded]
        by_cases hs : s = ""
        · rw [if_pos hs, if_pos hs, mergeInto_nil]
        · rw [if_neg hs, if_neg hs]
          by_cases hlen : (splitChar '|' s.toList).length < 3
          · rw [if_pos hlen, if_pos hlen, mergeInto_nil]
          · rw [if_neg hlen, if_neg hlen]
            by_cases hbid :
                parseFloatOr0 (String.mk ((splitChar '|' s.toList).getD 1 [])) ≤ 0
            · rw [if_pos hbid, if_pos hbid, mergeInto_nil]
            · rw [if_neg hbid, if_neg hbid]
              rw [mergeInto, List.foldl_map]
    rw [hstep, ih, mergeInto_append]

/-- `extractBbid` is the set-max merge of every transaction's recorded
`(playerId, bidAmount)` pairs into an initially empty map. -/
theorem extractBbid_eq (txs : JsVal RawTx) :
    extractBbid txs = mergeInto [] ((ensureArray txs).flatMap txRecorded) := by
  rw [extractBbid]
  exact foldl_bbid_step (ensureArray txs) []

/-- **C5**: the transaction string `"14867,|425000|13593,"` yields the
mapping `{13593: 425000}`; a transaction with fewer than three
`|`-segments, or a parsed bid of 0 or less, records nothing; and in
general the extractor records exactly the trimmed non-empty ids of
segment 3 at the parsed bid of segment 2, keeping the running maximum on
ids recorded more than once. -/
theorem waiver_parsing :
    extractBbid (.many [⟨some "14867,|425000|13593,"⟩]) = [("13593", 425000)] ∧
    (∀ s : String, (splitChar '|' s.toList).length < 3 →
        extractBbid (.many [⟨some s⟩]) = []) ∧
    (∀ s : String,
        parseFloatOr0 (String.mk ((splitChar '|' s.toList).getD 1 [])) ≤ 0 →
        extractBbid (.many [⟨some s⟩]) = []) ∧
    (∀ s : String, s ≠ "" → ¬ (splitChar '|' s.toList).length < 3 →
        0 < parseFloatOr0 (String.mk ((splitChar '|' s.toList).getD 1 [])) →
        ∀ k, mapGet (extractBbid (.many [⟨some s⟩])) k
          = if k ∈ addedIdsOf s
            then some (parseFloatOr0 (String.mk ((splitChar '|' s.toList).getD 1 [])))
            else none) ∧
    (∀ (txs : JsVal RawTx) (k : String),
        ((mapGet (extractBbid txs) k).isSome ↔
          ∃ v, (k, v) ∈ (ensureArray txs).flatMap txRecorded) ∧
        (∀ v, (k, v) ∈ (ensureArray txs).flatMap txRecorded →
          v ≤ getOr0 (extractBbid txs) k) ∧
        (getOr0 (extractBbid txs) k = 0
          ∨ ∃ v, (k, v) ∈ (ensureArray txs).flatMap txRecorded
              ∧ getOr0 (extractBbid txs) k = v)) := by
  refine ⟨by decide, ?_, ?_, ?_, ?_⟩
  · intro s hlen
    rw [extractBbid]
    show (if s = "" then ([] : SalMap)
      else
        if (splitChar '|' s.toList).length < 3 then []
        else
          if parseFloatOr0 (String.mk ((splitChar '|' s.toList).getD 1 [])) ≤ 0
          then []
          else
            (((splitChar ',' ((splitChar '|' s.toList).getD 2 [])).map
              (fun t => String.mk (trimChars t))).filter (fun t => t ≠ "")).foldl
              (fun m' pid => setMax m' pid
                (parseFloatOr0 (String.mk ((splitChar '|' s.toList).getD 1 []))))
              []) = []
    by_cases hs : s = ""
    · rw [if_pos hs]
    · rw [if_neg hs, if_pos hlen]
  · intro s hbid
    rw [extractBbid]
    show (if s = "" then ([] : SalMap)
      else
        if (splitChar '|' s.toList).length < 3 then []
        else
          if parseFloatOr0 (String.mk ((splitChar '|' s.toList).getD 1 [])) ≤ 0
          then []
          else
            (((splitChar ',' ((splitChar '|' s.toList).getD 2 [])).map
              (fun t => String.mk (trimChars t))).filter (fun t => t ≠ "")).foldl
              (fun m' pid => setMax m' pid
                (parseFloatOr0 (String.mk ((splitChar '|' s.toList).getD 1 []))))
              []) = []
    by_cases hs : s = ""
    · rw [if_pos hs]
    · rw [if_neg hs]
      by_cases hlen : (splitChar '|' s.toList).length < 3
      · rw [if_pos hlen]
      · rw [if_neg hlen, if_pos hbid]
  · intro s hne hlen hbid k
    have htx : txRecorded ⟨some s⟩
        = (addedIdsOf s).map (fun pid =>
            (pid, parseFloatOr0 (String.mk ((splitChar '|' s.toList).getD 1 [])))) := by
      simp only [txRecorded, addedIdsOf]
      rw [if_neg hne, if_neg hlen, if_neg (not_le.mpr hbid)]
    have hflat : (ensureArray (JsVal.many [(⟨some s⟩ : RawTx)])).flatMap txRecorded
        = txRecorded ⟨some s⟩ := by
      simp [ensureArray]
    rw [extractBbid_eq, hflat, htx]
    set B := parseFloatOr0 (String.mk ((splitChar '|' s.toList).getD 1 [])) with hB
    by_cases hk : k ∈ addedIdsOf s
    · have hmem : (k, B) ∈ (addedIdsOf s).map (fun pid => (pid, B)) :=
        List.mem_map_of_mem _ hk
      have hsome : (mapGet (mergeInto []
          ((addedIdsOf s).map fun pid => (pid, B))) k).isSome := by
        rw [isSome_mergeInto]
        exact Or.inr ⟨B, hmem⟩
      rw [if_pos hk, mapGet_eq_some_getOr0 hsome, getOr0_mergeInto]
      have hub : B ≤ maxAt k ((addedIdsOf s).map fun pid => (pid, B))
          (getOr0 [] k) := maxAt_le_of_mem hmem _
      rcases maxAt_attained k ((addedIdsOf s).map fun pid => (pid, B))
          (getOr0 [] k) with h0 | ⟨v, hv, heq⟩
      · exact absurd hbid (not_lt.mpr (le_of_le_of_eq hub h0))
      · rcases List.mem_map.mp hv with ⟨pid, _, hpair⟩
        have hvB : v = B := ((Prod.mk.injEq _ _ _ _ ▸ hpair).2).symm
        rw [heq, hvB]
    · rw [if_neg hk, ← Option.not_isSome_iff_eq_none, isSome_mergeInto]
      rintro (habs | ⟨v, hv⟩)
      · simp [mapGet] at habs
      · rcases List.mem_map.mp hv with ⟨pid, hpid, hpair⟩
        have hpk : pid = k := (Prod.mk.injEq _ _ _ _ ▸ hpair).1
        exact hk (hpk ▸ hpid)
  · intro txs k
    rw [extractBbid_eq]
    refine ⟨?_, ?_, ?_⟩
    · rw [isSome_mergeInto]
      simp [mapGet]
    · intro v hv
      rw [getOr0_mergeInto]
      exact maxAt_le_of_mem hv _
    · rw [getOr0_mergeInto]
      exact maxAt_attained k _ _

/-- Witness for C5: a two-segment transaction records nothing, and the
characterization applies at the concrete example transaction. -/
theorem waiver_parsing_witness :
    ((splitChar '|' ("14867,|425000" : String).toList).length < 3 ∧
      parseFloatOr0 (String.mk ((splitChar '|' ("x|0|9" : String).toList).getD 1 [])) ≤ 0) ∧
    extractBbid (.many [⟨some "14867,|425000"⟩]) = [] ∧
    extractBbid (.many [⟨some "x|0|9"⟩]) = [] ∧
    mapGet (extractBbid (.many [⟨some "14867,|425000|13593,"⟩])) "13593"
      = if "13593" ∈ addedIdsOf "14867,|425000|13593,"
        then some (parseFloatOr0 (String.mk
          ((splitChar '|' ("14867,|425000|13593," : String).toList).getD 1 [])))
        else none := by
  refine ⟨⟨by decide, by decide⟩, ?_, ?_, ?_⟩
  · exact waiver_parsing.2.1 "14867,|425000" (by decide)
  · exact waiver_parsing.2.2.1 "x|0|9" (by decide)
  · exact waiver_parsing.2.2.2.1 "14867,|425000|13593," (by decide) (by decide)
      (by decide) "13593"

-- ── Lemmas: fetchJson ────────────────────────────────────────────────

/-- **C8**: `fetchJson` makes at most `MAX_RETRIES` (3) attempts; a
non-success HTTP status, a transport failure, and a body with an error
field are all failures of an attempt (hence retried); between attempt
`k` and `k+1` it waits `k · RETRY_BACKOFF_MS` (linear backoff); an error
result happens only on the third attempt's failure and carries the URL
and the last underlying message; a success result returns the body of
the succeeding attempt, every earlier attempt having failed. -/
theorem fetchJson_retry_contract :
    ∀ (url : String) (oracle : Nat → FetchAttempt),
      (fetchJson url oracle).attempts ≤ MAX_RETRIES ∧
      (fetchJson url oracle).waits
        = (List.range ((fetchJson url oracle).attempts - 1)).map
            (fun i => RETRY_BACKOFF_MS * (i + 1)) ∧
      (∀ body, (fetchJson url oracle).result = .ok body →
        attemptOutcome (oracle (fetchJson url oracle).attempts) = .ok body) ∧
      (∀ m, (fetchJson url oracle).result = .error m →
        (fetchJson url oracle).attempts = MAX_RETRIES ∧
        ∃ lastMsg, attemptOutcome (oracle MAX_RETRIES) = .error lastMsg ∧
          m = failMsg url lastMsg) ∧
      (∀ k, 1 ≤ k → k < (fetchJson url oracle).attempts →
        ∃ msg, attemptOutcome (oracle k) = .error msg) ∧
      (∀ st sx, ∃ msg, attemptOutcome (.notOk st sx) = .error msg) ∧
      (∀ ms, attemptOutcome (.throws ms) = .error ms) ∧
      (∀ e p, ∃ msg, attemptOutcome (.okBody ⟨some e, p⟩) = .error msg) := by
  intro url oracle
  have hkind1 : ∀ st sx, ∃ msg, attemptOutcome (.notOk st sx) = .error msg :=
    fun st sx => ⟨_, rfl⟩
  have hkind2 : ∀ ms, attemptOutcome (.throws ms) = .error ms := fun ms => rfl
  have hkind3 : ∀ e p, ∃ msg, attemptOutcome (.okBody ⟨some e, p⟩) = .error msg :=
    fun e p => ⟨_, rfl⟩
  rcases h1 : attemptOutcome (oracle 1) with m1 | b1
  · rcases h2 : attemptOutcome (oracle 2) with m2 | b2
    · rcases h3 : attemptOutcome (oracle 3) with m3 | b3
      · have hfj : fetchJson url oracle
            = ⟨.error (failMsg url m3),
              [RETRY_BACKOFF_MS, RETRY_BACKOFF_MS * 2], 3⟩ := by
          simp [fetchJson, fetchJsonGo, h1, h2, h3, MAX_RETRIES]
        refine ⟨?_, ?_, ?_, ?_, ?_, hkind1, hkind2, hkind3⟩
        · rw [hfj]; show (3 : Nat) ≤ MAX_RETRIES; decide
        · rw [hfj]
          show [RETRY_BACKOFF_MS, RETRY_BACKOFF_MS * 2]
            = (List.range (3 - 1)).map (fun i => RETRY_BACKOFF_MS * (i + 1))
          decide
        · intro body hb
          rw [hfj] at hb
          simp at hb
        · intro m hm
          rw [hfj] at hm
          simp only [Except.error.injEq] at hm
          refine ⟨by rw [hfj]; rfl, m3, ?_, hm.symm⟩
          show attemptOutcome (oracle MAX_RETRIES) = Except.error m3
          rw [show MAX_RETRIES = 3 from rfl]
          exact h3
        · intro k hk1 hk2
          rw [hfj] at hk2
          have hk2' : k < 3 := hk2
          interval_cases k
          · exact ⟨m1, h1⟩
          · exact ⟨m2, h2⟩
      · have hfj : fetchJson url oracle
            = ⟨.ok b3, [RETRY_BACKOFF_MS, RETRY_BACKOFF_MS * 2], 3⟩ := by
          simp [fetchJson, fetchJsonGo, h1, h2, h3, MAX_RETRIES]
        refine ⟨?_, ?_, ?_, ?_, ?_, hkind1, hkind2, hkind3⟩
        · rw [hfj]; show (3 : Nat) ≤ MAX_RETRIES; decide
        · rw [hfj]
          show [RETRY_BACKOFF_MS, RETRY_BACKOFF_MS * 2]
            = (List.range (3 - 1)).map (fun i => RETRY_BACKOFF_MS * (i + 1))
          decide
        · intro body hb
          rw [hfj] at hb
          simp only [Except.ok.injEq] at hb
          rw [hfj, ← hb]
          exact h3
        · intro m hm
          rw [hfj] at hm
          simp at hm
        · intro k hk1 hk2
          rw [hfj] at hk2
          have hk2' : k < 3 := hk2
          interval_cases k
          · exact ⟨m1, h1⟩
          · exact ⟨m2, h2⟩
    · have hfj : fetchJson url oracle = ⟨.ok b2, [RETRY_BACKOFF_MS], 2⟩ := by
        simp [fetchJson, fetchJsonGo, h1, h2, MAX_RETRIES]
      refine ⟨?_, ?_, ?_, ?_, ?_, hkind1, hkind2, hkind3⟩
      · rw [hfj]; show (2 : Nat) ≤ MAX_RETRIES; decide
      · rw [hfj]
        show [RETRY_BACKOFF_MS]
          = (List.range (2 - 1)).map (fun i => RETRY_BACKOFF_MS * (i + 1))
        decide
      · intro body hb
        rw [hfj] at hb
        simp only [Except.ok.injEq] at hb
        rw [hfj, ← hb]
        exact h2
      · intro m hm
        rw [hfj] at hm
        simp at hm
      · intro k hk1 hk2
        rw [hfj] at hk2
        have hk2' : k < 2 := hk2
        interval_cases k
        · exact ⟨m1, h1⟩
  · have hfj : fetchJson url oracle = ⟨.ok b1, [], 1⟩ := by
      simp [fetchJson, fetchJsonGo, h1, MAX_RETRIES]
    refine ⟨?_, ?_, ?_, ?_, ?_, hkind1, hkind2, hkind3⟩
    · rw [hfj]; show (1 : Nat) ≤ MAX_RETRIES; decide
    · rw [hfj]
      show ([] : List Nat)
        = (List.range (1 - 1)).map (fun i => RETRY_BACKOFF_MS * (i + 1))
      decide
    · intro body hb
      rw [hfj] at hb
      simp only [Except.ok.injEq] at hb
      rw [hfj, ← hb]
      exact h1
    · intro m hm
      rw [hfj] at hm
      simp at hm
    · intro k hk1 hk2
      rw [hfj] at hk2
      have hk2' : k < 1 := hk2
      omega

/-- Witness for C8: a permanently failing oracle produces exactly three
attempts, the two linear-backoff waits, and the final error message; the
hypothesis of the error conjunct is discharged at that concrete run. -/
theorem fetchJson_retry_contract_witness :
    (fetchJson "u" (fun _ => .throws "boom")).result = .error (failMsg "u" "boom") ∧
    (fetchJson "u" (fun _ => .throws "boom")).attempts = MAX_RETRIES ∧
    (∃ lastMsg,
      attemptOutcome ((fun _ => .throws "boom") MAX_RETRIES) = .error lastMsg ∧
      failMsg "u" "boom" = failMsg "u" lastMsg) ∧
    (fetchJson "u" (fun _ => .throws "boom")).waits
      = [RETRY_BACKOFF_MS, RETRY_BACKOFF_MS * 2] := by
  have h := (fetchJson_retry_contract "u" (fun _ => .throws "boom")).2.2.2.1
    (failMsg "u" "boom") rfl
  exact ⟨rfl, h.1, h.2, by decide⟩

-- ── Lemmas: player metadata and bucket coverage ──────────────────────

theorem normalizePosition_result_mem {o : Option String} {r : String}
    (h : normalizePosition o = some r) : r ∈ POSITIONS := by
  cases o with
  | none => simp [normalizePosition] at h
  | some s =>
    by_cases h0 : s = ""
    · subst h0; simp [normalizePosition] at h
    · by_cases h1 : s ∈ EXCLUDED_POSITIONS
      · rw [normalizePosition_excluded h1] at h
        exact absurd h (by simp)
      · rw [normalizePosition_of_ne s h0 h1] at h
        split at h
        · cases h; decide
        · split at h
          · cases h; decide
          · exact mapGet_positionMap_mem h

theorem mem_mapSet {α : Type} {m : List (String × α)} {k : String} {v : α}
    {e : String × α} (h : e ∈ mapSet m k v) : e ∈ m ∨ e = (k, v) := by
  induction m with
  | nil =>
    simp [mapSet] at h
    right; exact h
  | cons e0 rest ih =>
    obtain ⟨k0, v0⟩ := e0
    rw [mapSet] at h
    by_cases h0 : k0 = k
    · rw [if_pos h0] at h
      rcases List.mem_cons.mp h with he | hm
      · right; rw [he, h0]
      · left; exact List.mem_cons_of_mem _ hm
    · rw [if_neg h0] at h
      rcases List.mem_cons.mp h with he | hm
      · left; rw [he]; exact List.mem_cons_self _ _
      · rcases ih hm with h' | h'
        · left; exact List.mem_cons_of_mem _ h'
        · right; exact h'

/-- The `fetchPlayerMetadata` loop only ever inserts normalized
positions, so every stored position is tracked. -/
theorem foldl_players_invariant (l : List RawPlayer)
    (m : List (String × PlayerMeta)) (hm : ∀ e ∈ m, e.2.position ∈ POSITIONS) :
    ∀ e ∈ l.foldl (fun m p =>
      match p.id with
      | none => m
      | some pid =>
        if pid = "" then m
        else
          match normalizePosition p.position with
          | none => m
          | some pos => mapSet m pid ⟨formatName p.name, pos⟩) m,
      e.2.position ∈ POSITIONS := by
  induction l generalizing m with
  | nil => exact hm
  | cons p l ih =>
    rw [List.foldl_cons]
    apply ih
    rcases p with ⟨oid, oname, opos⟩
    cases oid with
    | none => exact hm
    | some pid =>
      by_cases hp : pid = ""
      · simp only [if_pos hp]
        exact hm
      · simp only [if_neg hp]
        rcases hnp : normalizePosition opos with _ | pos
        · exact hm
        · intro e he
          rcases mem_mapSet he with h' | h'
          · exact hm e h'
          · rw [h']
            exact normalizePosition_result_mem hnp

theorem extractPlayers_position_mem (ps : JsVal RawPlayer) :
    ∀ (pid : String) (meta : PlayerMeta),
      mapGet (extractPlayers ps) pid = some meta → meta.position ∈ POSITIONS := by
  intro pid meta h
  have hmem := mapGet_eq_some_mem h
  have hall := foldl_players_invariant (ensureArray ps) [] (by simp)
  rw [extractPlayers] at hmem
  exact hall _ hmem

theorem sum_map_add_nat (l : List String) (f g : String → Nat) :
    (l.map (fun x => f x + g x)).sum = (l.map f).sum + (l.map g).sum := by
  induction l with
  | nil => rfl
  | cons x l ih =>
    rw [List.map_cons, List.map_cons, List.map_cons, List.sum_cons,
      List.sum_cons, List.sum_cons, ih]
    omega

theorem indicator_sum_one :
    ∀ p ∈ POSITIONS,
      (POSITIONS.map fun pos => if p = pos then 1 else 0).sum = 1 := by decide

theorem bucketEntries_cons (e : String × Int) (sl : SalMap)
    (pm : List (String × PlayerMeta)) (pos : String) :
    bucketEntries (e :: sl) pm pos
      = match mapGet pm e.1 with
        | none => bucketEntries sl pm pos
        | some meta =>
          if meta.position = pos
          then ⟨meta.name, e.2⟩ :: bucketEntries sl pm pos
          else bucketEntries sl pm pos := by
  rw [bucketEntries, List.filterMap_cons]
  rcases hm : mapGet pm e.1 with _ | meta
  · simp [bucketEntries]
  · by_cases hp : meta.position = pos <;> simp [hp, bucketEntries]

/-- With metadata whose positions are all tracked, the six buckets
partition exactly the salary entries that have metadata: the skip for an
untracked bucket never fires. -/
theorem buckets_length_sum (pm : List (String × PlayerMeta))
    (hclosed : ∀ pid meta, mapGet pm pid = some meta → meta.position ∈ POSITIONS)
    (sl : SalMap) :
    (POSITIONS.map fun pos => (bucketEntries sl pm pos).length).sum
      = (sl.filter fun e => (mapGet pm e.1).isSome).length := by
  induction sl with
  | nil => simp [bucketEntries]
  | cons e sl ih =>
    rw [List.filter_cons]
    rcases hm : mapGet pm e.1 with _ | meta
    · have hmap : (POSITIONS.map fun pos => (bucketEntries (e :: sl) pm pos).length)
          = POSITIONS.map fun pos => (bucketEntries sl pm pos).length := by
        refine List.map_congr_left (fun pos _ => ?_)
        rw [bucketEntries_cons, hm]
      rw [hmap, ih]
      simp
    · have hb : ∀ pos, (bucketEntries (e :: sl) pm pos).length
          = (if meta.position = pos then 1 else 0) + (bucketEntries sl pm pos).length := by
        intro pos
        rw [bucketEntries_cons, hm]
        by_cases hp : meta.position = pos
        · simp [hp]
          omega
        · simp [hp]
      have hmap : (POSITIONS.map fun pos => (bucketEntries (e :: sl) pm pos).length)
          = POSITIONS.map fun pos =>
              (if meta.position = pos then 1 else 0) + (bucketEntries sl pm pos).length :=
        List.map_congr_left (fun pos _ => hb pos)
      rw [hmap, sum_map_add_nat, indicator_sum_one meta.position (hclosed _ _ hm), ih]
      simp
      omega

/-- **C10**: every entry in the player-metadata mapping has one of the
six tracked positions; consequently in the Ranking Engine the six
buckets receive exactly the salary entries that have metadata (the
untracked-bucket skip is unreachable), and a salaried player with
metadata always lands in their position's bucket — metadata absence is
the only way an entry is dropped. -/
theorem metadata_always_tracked :
    ∀ (ps : JsVal RawPlayer),
      (∀ pid meta, mapGet (extractPlayers ps) pid = some meta →
          meta.position ∈ POSITIONS) ∧
      ∀ (sl : SalMap),
        ((POSITIONS.map fun pos =>
            (bucketEntries sl (extractPlayers ps) pos).length).sum
          = (sl.filter fun e => (mapGet (extractPlayers ps) e.1).isSome).length) ∧
        (∀ e ∈ sl, ∀ meta, mapGet (extractPlayers ps) e.1 = some meta →
            meta.position ∈ POSITIONS ∧
            (⟨meta.name, e.2⟩ : RankedEntry)
              ∈ bucketEntries sl (extractPlayers ps) meta.position) := by
  intro ps
  have hclosed := extractPlayers_position_mem ps
  refine ⟨hclosed, ?_⟩
  intro sl
  refine ⟨buckets_length_sum _ (fun pid meta h => hclosed pid meta h) sl, ?_⟩
  intro e he meta hm
  refine ⟨hclosed _ _ hm, ?_⟩
  rw [bucketEntries]
  refine List.mem_filterMap.mpr ⟨e, he, ?_⟩
  rw [hm]
  simp

/-- Witness for C10 at one concrete player feed and salary map. -/
theorem metadata_always_tracked_witness :
    (mapGet (extractPlayers (.many [⟨some "p1", some "Smith, John", some "qb"⟩]))
        "p1" = some ⟨"John Smith", "QB"⟩ ∧
      ("p1", (100 : Int)) ∈ ([("p1", 100), ("p2", 50)] : SalMap)) ∧
    (("QB" : String) ∈ POSITIONS) ∧
    ((POSITIONS.map fun pos =>
        (bucketEntries [("p1", 100), ("p2", 50)]
          (extractPlayers (.many [⟨some "p1", some "Smith, John", some "qb"⟩]))
          pos).length).sum
      = (([("p1", 100), ("p2", 50)] : SalMap).filter fun e =>
          (mapGet (extractPlayers
            (.many [⟨some "p1", some "Smith, John", some "qb"⟩])) e.1).isSome).length) ∧
    (⟨"John Smith", (100 : Int)⟩ : RankedEntry)
      ∈ bucketEntries [("p1", 100), ("p2", 50)]
          (extractPlayers (.many [⟨some "p1", some "Smith, John", some "qb"⟩])) "QB" := by
  have h := metadata_always_tracked (.many [⟨some "p1", some "Smith, John", some "qb"⟩])
  have hb := (h.2 [("p1", 100), ("p2", 50)]).2 ("p1", 100) (by decide)
    ⟨"John Smith", "QB"⟩ (by decide)
  exact ⟨⟨by decide, by decide⟩, hb.1, (h.2 [("p1", 100), ("p2", 50)]).1, hb.2⟩

-- ── Lemmas: orchestration ────────────────────────────────────────────

theorem collectYears_ok_iff (net : Network) :
    ∀ (yrs : List Nat) (acc : AllData),
      (∃ d, collectYears net yrs acc = .ok d) ↔ ∀ y ∈ yrs, seasonOk net y := by
  intro yrs
  induction yrs with
  | nil => intro acc; simp [collectYears]
  | cons y rest ih =>
    intro acc
    rcases hr1 : net.rosters y 1 with e1 | d1
    · simp [collectYears, fetchRosters, Except.map, hr1, Bind.bind, Except.bind,
        seasonOk, okb]
    · rcases hr14 : net.rosters y 14 with e14 | d14
      · simp [collectYears, fetchRosters, Except.map, hr1, hr14, Bind.bind,
          Except.bind, seasonOk, okb]
      · rcases hau : net.auctionResults y with ea | da
        · simp [collectYears, fetchRosters, fetchAuctionResults, Except.map,
            hr1, hr14, hau, Bind.bind, Except.bind, seasonOk, okb]
        · rcases htx : net.transactions y with et | dt
          · simp [collectYears, fetchRosters, fetchAuctionResults,
              fetchBbidTransactions, Except.map, hr1, hr14, hau, htx,
              Bind.bind, Except.bind, seasonOk, okb]
          · rcases hpl : net.players y with ep | dp
            · simp [collectYears, fetchRosters, fetchAuctionResults,
                fetchBbidTransactions, fetchPlayerMetadata, Except.map,
                hr1, hr14, hau, htx, hpl, Bind.bind, Except.bind, seasonOk, okb]
            · have hstep : collectYears net (y :: rest) acc
                  = collectYears net rest (storeYear acc y
                      (rankByPosition
                        (mergeList [extractRosters d1, extractRosters d14,
                          extractAuctions da, extractBbid dt])
                        (extractPlayers dp))) := by
                simp [collectYears, fetchRosters, fetchAuctionResults,
                  fetchBbidTransactions, fetchPlayerMetadata, Except.map,
                  hr1, hr14, hau, htx, hpl, Bind.bind, Except.bind, mergeList]
              rw [hstep]
              constructor
              · intro hd y' hy'
                rcases List.mem_cons.mp hy' with he | hm
                · subst he
                  exact ⟨by rw [hr1]; rfl, by rw [hr14]; rfl, by rw [hau]; rfl,
                    by rw [htx]; rfl, by rw [hpl]; rfl⟩
                · exact (ih _).mp hd y' hm
              · intro hall
                exact (ih _).mpr (fun y' hy' => hall y' (List.mem_cons_of_mem _ hy'))

theorem collectYears_error (net : Network) :
    ∀ (yrs : List Nat) (acc : AllData) (e : String),
      collectYears net yrs acc = .error e → ∃ y ∈ yrs, seasonErr net y e := by
  intro yrs
  induction yrs with
  | nil => intro acc e h; simp [collectYears] at h
  | cons y rest ih =>
    intro acc e h
    rcases hr1 : net.rosters y 1 with e1 | d1
    · simp [collectYears, fetchRosters, Except.map, hr1, Bind.bind,
        Except.bind] at h
      exact ⟨y, List.mem_cons_self _ _, Or.inl (by rw [hr1, h])⟩
    · rcases hr14 : net.rosters y 14 with e14 | d14
      · simp [collectYears, fetchRosters, Except.map, hr1, hr14, Bind.bind,
          Except.bind] at h
        exact ⟨y, List.mem_cons_self _ _,
          Or.inr (Or.inl (by rw [hr14, h]))⟩
      · rcases hau : net.auctionResults y with ea | da
        · simp [collectYears, fetchRosters, fetchAuctionResults, Except.map,
            hr1, hr14, hau, Bind.bind, Except.bind] at h
          exact ⟨y, List.mem_cons_self _ _,
            Or.inr (Or.inr (Or.inl (by rw [hau, h])))⟩
        · rcases htx : net.transactions y with et | dt
          · simp [collectYears, fetchRosters, fetchAuctionResults,
              fetchBbidTransactions, Except.map, hr1, hr14, hau, htx,
              Bind.bind, Except.bind] at h
            exact ⟨y, List.mem_cons_self _ _,
              Or.inr (Or.inr (Or.inr (Or.inl (by rw [htx, h]))))⟩
          · rcases hpl : net.players y with ep | dp
            · simp [collectYears, fetchRosters, fetchAuctionResults,
                fetchBbidTransactions, fetchPlayerMetadata, Except.map,
                hr1, hr14, hau, htx, hpl, Bind.bind, Except.bind] at h
              exact ⟨y, List.mem_cons_self _ _,
                Or.inr (Or.inr (Or.inr (Or.inr (by rw [hpl, h]))))⟩
            · have hstep : collectYears net (y :: rest) acc
                  = collectYears net rest (storeYear acc y
                      (rankByPosition
                        (mergeList [extractRosters d1, extractRosters d14,
                          extractAuctions da, extractBbid dt])
                        (extractPlayers dp))) := by
                simp [collectYears, fetchRosters, fetchAuctionResults,
                  fetchBbidTransactions, fetchPlayerMetadata, Except.map,
                  hr1, hr14, hau, htx, hpl, Bind.bind, Except.bind, mergeList]
              rw [hstep] at h
              rcases ih _ _ h with ⟨y', hy', herr⟩
              exact ⟨y', List.mem_cons_of_mem _ hy', herr⟩

/-- **C9**: a fetch failure anywhere aborts the whole run with no
output: the workbook is written (and the exit code is 0) iff every
request of every season succeeds, the written name is the dated
filename, and a `collectAllData` error is exactly some season's fetch
error, propagated unmodified, with exit code 1 and nothing written. -/
theorem fatal_fetch_aborts_run :
    ∀ (net : Network) (today : String),
      ((mainRun net today).written.isSome ↔ ∀ y ∈ YEARS, seasonOk net y) ∧
      ((mainRun net today).exitCode = 0 ↔ ∀ y ∈ YEARS, seasonOk net y) ∧
      ((mainRun net today).written.isSome →
        (mainRun net today).written
          = some ("mfl-salary-top30-" ++ today ++ ".xlsx")) ∧
      (∀ e, collectAllData net = .error e →
        (mainRun net today).exitCode = 1 ∧ (mainRun net today).written = none ∧
        ∃ y ∈ YEARS, seasonErr net y e) := by
  intro net today
  rcases hc : collectAllData net with e | d
  · have hnall : ¬ ∀ y ∈ YEARS, seasonOk net y := by
      intro hall
      rcases (collectYears_ok_iff net YEARS
          (POSITIONS.map fun pos => (pos, []))).mpr hall with ⟨d, hd⟩
      rw [← collectAllData, hc] at hd
      simp at hd
    refine ⟨?_, ?_, ?_, ?_⟩
    · rw [mainRun, hc]
      simp [hnall]
    · rw [mainRun, hc]
      simp [hnall]
    · rw [mainRun, hc]
      simp
    · intro e' he'
      simp only [Except.error.injEq] at he'
      subst he'
      refine ⟨?_, ?_, ?_⟩
      · simp [mainRun, hc]
      · simp [mainRun, hc]
      · rw [collectAllData] at hc
        exact collectYears_error net YEARS _ e hc
  · have hall : ∀ y ∈ YEARS, seasonOk net y := by
      refine (collectYears_ok_iff net YEARS
        (POSITIONS.map fun pos => (pos, []))).mp ⟨d, ?_⟩
      rw [← collectAllData]
      exact hc
    refine ⟨?_, ?_, ?_, ?_⟩
    · simp only [mainRun, hc]
      simp only [Option.isSome_some]
      exact iff_of_true trivial hall
    · simp only [mainRun, hc]
      exact iff_of_true trivial hall
    · intro _
      simp [mainRun, hc]
    · intro e' he'
      simp at he'

/-- Witness for C9: a network whose every request fails aborts with exit
code 1 and no artifact, and a network whose every request succeeds
writes the dated workbook. -/
theorem fatal_fetch_aborts_run_witness :
    (collectAllData (Network.mk (fun _ _ => .error "down")
        (fun _ => .error "down") (fun _ => .error "down")
        (fun _ => .error "down")) = .error "down") ∧
    ((mainRun (Network.mk (fun _ _ => .error "down") (fun _ => .error "down")
        (fun _ => .error "down") (fun _ => .error "down")) "d").exitCode = 1 ∧
      (mainRun (Network.mk (fun _ _ => .error "down") (fun _ => .error "down")
        (fun _ => .error "down") (fun _ => .error "down")) "d").written = none ∧
      ∃ y ∈ YEARS, seasonErr (Network.mk (fun _ _ => .error "down")
        (fun _ => .error "down") (fun _ => .error "down")
        (fun _ => .error "down")) y "down") ∧
    (mainRun (Network.mk (fun _ _ => .ok .missing) (fun _ => .ok .missing)
        (fun _ => .ok .missing) (fun _ => .ok .missing)) "d").written
      = some ("mfl-salary-top30-" ++ "d" ++ ".xlsx") := by
  refine ⟨rfl, ?_, ?_⟩
  · exact (fatal_fetch_aborts_run (Network.mk (fun _ _ => .error "down")
      (fun _ => .error "down") (fun _ => .error "down")
      (fun _ => .error "down")) "d").2.2.2 "down" rfl
  · exact (fatal_fetch_aborts_run (Network.mk (fun _ _ => .ok .missing)
      (fun _ => .ok .missing) (fun _ => .ok .missing)
      (fun _ => .ok .missing)) "d").2.2.1 rfl
